import Mathlib

/-!
# Ziv-Lempel compressor (`src/main.cpp`): embedding and verification

The development embeds the three parts of `src/main.cpp`:

* `HashTable` (lines 8-76): the open-addressed table with linear probing,
* `compress` (lines 79-132): the LZW encoder driving that table,
* `decompress` (lines 135-192): the LZW decoder driving a 4096-slot vector.

Conventions of the embedding.

* A `char` of a `std::string` is a `Byte` (`Fin 256`); a `std::string` is a
  `List Byte`.
* `int` codes are `Int`; the counters `next_code` and `next_available_code`
  stay within `256 .. 4096` and are `Nat`.
* `std::hash<K>` is implementation defined: it is the parameter `hasher`.
* The text written to `std::cout` is the returned value: the list of codes for
  `compress`, the list of bytes for `decompress`.  The separating blanks and
  the closing `std::endl` are layout of the console and are left out.  The
  message written to `std::cerr` is the `error` field of the result.
* Properties of what happens during a run are stated on recordings of the same
  loops: `compressSteps` (the passes of `compress` that write a code),
  `loopEntries` (the strings `decompress` writes) and `decompressAccesses` (the
  table indices and first bytes `decompress` reads or writes).  Each recording
  is tied to the function by a theorem (`compress_eq_steps`,
  `decompress_output_eq`) or follows its branches line by line.
* The two `while` loops of the table take a fuel argument; `ProbeResult.exhausted`
  and `LookupResult.exhausted` stand for running out of fuel and are shown
  unreachable for the fuel `table_size` that `add` and `get` pass.
-/

namespace ZivLempel

/-- One `char` of a `std::string`. -/
abbrev Byte := Fin 256

/-! ## The hash table (lines 8-76) -/

/-- The table of `HashTable<K, V>`.  A slot is `none` when its `used` flag is
false (its `key` and `value` members are then never read) and `some (key, value)`
when the flag is true. -/
structure HashTable (K V : Type) where
  table : List (Option (K × V))
  table_size : Nat

namespace HashTable

variable {K V : Type}

/-- The constructor `HashTable(int size)`: a non-positive size is replaced by
16384, then `table_size` unused slots are allocated. -/
def new (size : Int) : HashTable K V :=
  let table_size := if size ≤ 0 then 16384 else size.toNat
  { table := List.replicate table_size none, table_size := table_size }

/-- The member `hash`: `hasher(key) % table_size`. -/
def hash (hasher : K → Nat) (t : HashTable K V) (key : K) : Nat :=
  hasher key % t.table_size

/-- The slot `table[spot]`.  The loops only compute indices below `table_size`,
the length of `table`, so the index is in range; an index out of range would
read as an unused slot. -/
def slot (t : HashTable K V) (spot : Nat) : Option (K × V) :=
  t.table[spot]?.join

/-- Outcome of the probing loop of `add`. -/
inductive ProbeResult where
  /-- The loop ended at `spot`: the slot is unused or holds the key. -/
  | stop (spot : Nat)
  /-- The walk came back to `start`: the `return` inside the loop. -/
  | full
  /-- The fuel ran out. -/
  | exhausted
  deriving DecidableEq, Repr

/-- The `while` loop of `add` (lines 41-45), one test of the loop condition per
unit of fuel. -/
def addProbe [DecidableEq K] (t : HashTable K V) (key : K) (start : Nat) :
    Nat → Nat → ProbeResult
  | 0, _ => ProbeResult.exhausted
  | fuel + 1, spot =>
    match t.slot spot with
    | some (k, _) =>
      if k ≠ key then
        let spot1 := (spot + 1) % t.table_size
        if spot1 = start then ProbeResult.full
        else addProbe t key start fuel spot1
      else ProbeResult.stop spot
    | none => ProbeResult.stop spot

/-- The member `add` (lines 36-55).  Where the loop stops, the slot becomes
`(key, value)`: by lines 48-50 when it was unused, by line 53 when it held the
key already.  When the loop returns at `start` the table is left as it is. -/
def add [DecidableEq K] (hasher : K → Nat) (t : HashTable K V) (key : K) (value : V) :
    HashTable K V :=
  let spot := t.hash hasher key
  match addProbe t key spot t.table_size spot with
  | ProbeResult.stop s => { t with table := t.table.set s (some (key, value)) }
  | ProbeResult.full => t
  | ProbeResult.exhausted => t

/-- Outcome of the probing loop of `get`. -/
inductive LookupResult (V : Type) where
  /-- The key was met: `return true` with the stored value. -/
  | found (value : V)
  /-- An unused slot was met or the walk came back to `start`: `return false`. -/
  | missing
  /-- The fuel ran out. -/
  | exhausted
  deriving DecidableEq, Repr

/-- The `while` loop of `get` (lines 63-72), one test of the loop condition per
unit of fuel. -/
def getProbe [DecidableEq K] (t : HashTable K V) (key : K) (start : Nat) :
    Nat → Nat → LookupResult V
  | 0, _ => LookupResult.exhausted
  | fuel + 1, spot =>
    match t.slot spot with
    | some (k, v) =>
      if k = key then LookupResult.found v
      else
        let spot1 := (spot + 1) % t.table_size
        if spot1 = start then LookupResult.missing
        else getProbe t key start fuel spot1
    | none => LookupResult.missing

/-- The member `get` (lines 58-75): `some value` for `return true`, `none` for
`return false`. -/
def get [DecidableEq K] (hasher : K → Nat) (t : HashTable K V) (key : K) : Option V :=
  let spot := t.hash hasher key
  match getProbe t key spot t.table_size spot with
  | LookupResult.found v => some v
  | LookupResult.missing => none
  | LookupResult.exhausted => none

/-- The table as the constructor leaves it: `table_size` slots, at least one. -/
structure WF (t : HashTable K V) : Prop where
  length_eq : t.table.length = t.table_size
  size_pos : 0 < t.table_size

/-- The slot `spot` is used and holds a key other than `key`: the condition of
the loop of `add`. -/
def Busy (t : HashTable K V) (key : K) (spot : Nat) : Prop :=
  ∃ k v, t.slot spot = some (k, v) ∧ k ≠ key

/-- Every stored key is reached from its home slot through used slots that hold
other keys. -/
def Reachable (hasher : K → Nat) (t : HashTable K V) : Prop :=
  ∀ i k v, t.slot i = some (k, v) →
    ∃ j, j < t.table_size ∧ i = (t.hash hasher k + j) % t.table_size ∧
      ∀ e, e < j → t.Busy k ((t.hash hasher k + e) % t.table_size)

/-- The number of unused slots. -/
def free (t : HashTable K V) : Nat := t.table.countP Option.isNone

end HashTable

/-! ## The encoder (lines 79-132) -/

/-- Lines 81-85: the dictionary of 16384 slots with the 256 one-byte strings. -/
def seedDictionary (hasher : List Byte → Nat) : HashTable (List Byte) Int :=
  (List.range 256).foldl
    (fun dictionary i => dictionary.add hasher [Fin.ofNat i] (i : Int))
    (HashTable.new 16384)

/-- The codes written by the `if` of lines 114-116. -/
def emitCode (hasher : List Byte → Nat) (dictionary : HashTable (List Byte) Int)
    ( current_prefix : List Byte) : List Int :=
  match dictionary.get hasher current_prefix with
  | some output_code => [output_code]
  | none => []

/-- The `for` loop of lines 97-129.  The first argument is what is left of
`text` from index `i` on; at `i = text.length()` it is empty and `current_char`
is 0. -/
def compressLoop (hasher : List Byte → Nat) :
    List Byte → HashTable (List Byte) Int → Nat → List Byte → List Int
  | [], dictionary, _, current_prefix =>
    -- here current_char is 0: the extended string is the current one, the test
    -- of line 108 fails, the code is written and the loop is left.
    emitCode hasher dictionary current_prefix
  | current_char :: rest, dictionary, next_code, current_prefix =>
    let extended_prefix :=
      if current_char ≠ 0 then current_prefix ++ [current_char] else current_prefix
    if (dictionary.get hasher extended_prefix).isSome ∧ current_char ≠ 0 then
      compressLoop hasher rest dictionary next_code extended_prefix
    else
      let written := emitCode hasher dictionary current_prefix
      let grown :=
        if current_char ≠ 0 ∧ next_code < 4096 then
          (dictionary.add hasher extended_prefix (next_code : Int), next_code + 1)
        else (dictionary, next_code)
      if current_char ≠ 0 then
        written ++ compressLoop hasher rest grown.1 grown.2 [current_char]
      else written

/-- The function `compress`: the codes it writes for `text`. -/
def compress (hasher : List Byte → Nat) (text : List Byte) : List Int :=
  match text with
  | [] => []
  | first :: rest => compressLoop hasher rest (seedDictionary hasher) 256 [first]

/-! ## The passes of the loop of `compress` that write a code -/

/-- The variables of `compress` when its loop reaches line 112, the branch that
writes a code. -/
structure EmitStep where
  dictionary : HashTable (List Byte) Int
  next_code : Nat
  current_prefix : List Byte
  current_char : Byte

/-- The codes written at lines 114-116 of the pass. -/
def EmitStep.written (hasher : List Byte → Nat) (s : EmitStep) : List Int :=
  emitCode hasher s.dictionary s.current_prefix

/-- The string and the code given to `add` at lines 118-120 of the pass, if
any. -/
def EmitStep.inserted (s : EmitStep) : Option (List Byte × Int) :=
  if s.current_char ≠ 0 ∧ s.next_code < 4096 then
    some ( s.current_prefix ++ [s.current_char], (s.next_code : Int))
  else none

/-- The loop of `compress` (lines 97-129) again, recording the passes that
reach line 112 instead of the codes they write. -/
def compressSteps (hasher : List Byte → Nat) :
    List Byte → HashTable (List Byte) Int → Nat → List Byte → List EmitStep
  | [], dictionary, next_code, current_prefix =>
    [{ dictionary := dictionary, next_code := next_code,
       current_prefix := current_prefix, current_char := 0 }]
  | current_char :: rest, dictionary, next_code, current_prefix =>
    let extended_prefix :=
      if current_char ≠ 0 then current_prefix ++ [current_char] else current_prefix
    if (dictionary.get hasher extended_prefix).isSome ∧ current_char ≠ 0 then
      compressSteps hasher rest dictionary next_code extended_prefix
    else
      let step : EmitStep :=
        { dictionary := dictionary, next_code := next_code,
          current_prefix := current_prefix, current_char := current_char }
      let grown :=
        if current_char ≠ 0 ∧ next_code < 4096 then
          (dictionary.add hasher extended_prefix (next_code : Int), next_code + 1)
        else (dictionary, next_code)
      if current_char ≠ 0 then
        step :: compressSteps hasher rest grown.1 grown.2 [current_char]
      else [step]

/-- The passes of a run of `compress` on `text` that reach line 112. -/
def emitSteps (hasher : List Byte → Nat) (text : List Byte) : List EmitStep :=
  match text with
  | [] => []
  | first :: rest => compressSteps hasher rest (seedDictionary hasher) 256 [first]

/-! ## The decoder (lines 135-192) -/

/-- The two messages of `decompress` on `std::cerr`. -/
inductive DecodeError where
  /-- Line 151: "Invalid starting code". -/
  | InvalidStartCode (code : Int)
  /-- Line 174: "Invalid code encountered during decompression". -/
  | InvalidCode (code : Int)
  deriving DecidableEq, Repr

/-- What a run of `decompress` leaves behind: the bytes on `std::cout` and the
error on `std::cerr`, if any. -/
structure DecodeResult where
  output : List Byte
  error : Option DecodeError
  deriving DecidableEq, Repr

/-- Lines 137-141: 4096 empty strings, the first 256 then set to the one-byte
strings. -/
def seedTable : List (List Byte) :=
  (List.range 256).foldl
    (fun dictionary i => dictionary.set i [Fin.ofNat i])
    (List.replicate 4096 [])

/-- The element `s[0]` of a `std::string`; for an empty string it is the
terminating zero. -/
def firstByte (s : List Byte) : Byte := s.headD 0

/-- The variables of the loop of `decompress`. -/
structure DecodeState where
  dictionary : List (List Byte)
  previous_entry : List Byte
  next_available_code : Nat
  deriving DecidableEq, Repr

/-- Lines 167-176: the string `current_entry` of a code, or `none` on the error
branch. -/
def currentEntry (st : DecodeState) (current_code : Int) : Option (List Byte) :=
  if 0 ≤ current_code ∧ current_code < (st.next_available_code : Int) ∧
      current_code < (st.dictionary.length : Int) ∧
      st.dictionary.getD current_code.toNat [] ≠ [] then
    some (st.dictionary.getD current_code.toNat [])
  else if current_code = (st.next_available_code : Int) then
    some (st.previous_entry ++ [firstByte st.previous_entry])
  else none

/-- Lines 181-187: the state after `current_entry` has been written. -/
def advance (st : DecodeState) (current_entry : List Byte) : DecodeState :=
  if st.next_available_code < 4096 then
    { dictionary := st.dictionary.set st.next_available_code
        (st.previous_entry ++ [firstByte current_entry]),
      previous_entry := current_entry,
      next_available_code := st.next_available_code + 1 }
  else { st with previous_entry := current_entry }

/-- The `for` loop of lines 163-188 over the codes from index 1 on: the bytes
written in the loop and the error that ended it, if any. -/
def decompressLoop : List Int → DecodeState → DecodeResult
  | [], _ => { output := [], error := none }
  | current_code :: rest, st =>
    match currentEntry st current_code with
    | none => { output := [], error := some (DecodeError.InvalidCode current_code) }
    | some current_entry =>
      let later := decompressLoop rest (advance st current_entry)
      { output := current_entry ++ later.output, error := later.error }

/-- The state at line 160, before the loop. -/
def initialState (first : Int) : DecodeState :=
  { dictionary := seedTable,
    previous_entry := seedTable.getD first.toNat [],
    next_available_code := 256 }

/-- The function `decompress`. -/
def decompress (numbers : List Int) : DecodeResult :=
  match numbers with
  | [] => { output := [], error := none }
  | first :: rest =>
    if first < 0 ∨ first > 255 then
      { output := [], error := some (DecodeError.InvalidStartCode first) }
    else
      let st := initialState first
      let later := decompressLoop rest st
      { output := st.previous_entry ++ later.output, error := later.error }

/-- The state in which the loop of `decompress` reaches the code that follows
`codes`, when every code of `codes` was accepted; `none` when one was not. -/
def runCodes : List Int → DecodeState → Option DecodeState
  | [], st => some st
  | current_code :: rest, st =>
    match currentEntry st current_code with
    | none => none
    | some current_entry => runCodes rest (advance st current_entry)

/-! ## Invariants and the dictionary of the encoder as a list of strings -/

/-- The index of the first entry equal to `w`. -/
def entryIndex (w : List Byte) : List (List Byte) → Option Nat
  | [] => none
  | e :: es => if e = w then some 0 else (entryIndex w es).map (· + 1)

/-- The code of the string `w` when the strings added after the seeds are
`entries`, in the order of their insertion: the byte itself for a one-byte
string, `256 + j` for the first entry, of index `j`, equal to `w`. -/
def lookupCode (entries : List (List Byte)) (w : List Byte) : Option Int :=
  match w with
  | [b] => some ((b.val : Nat) : Int)
  | _ => (entryIndex w entries).map (fun j => ((256 + j : Nat) : Int))

/-- The entries of the dictionary after the pass of the loop that wrote a code
with `current_char` not 0 (lines 118-120). -/
def growEntries (entries : List (List Byte)) (w : List Byte) (c : Byte) : List (List Byte) :=
  if 256 + entries.length < 4096 then entries ++ [w ++ [c]] else entries

/-- The loop of `compress` on the list of entries instead of the hash table. -/
def compressLoopAbs : List Byte → List (List Byte) → List Byte → List Int
  | [], entries, w => (lookupCode entries w).toList
  | c :: rest, entries, w =>
    if c ≠ 0 then
      if (lookupCode entries (w ++ [c])).isSome then compressLoopAbs rest entries (w ++ [c])
      else (lookupCode entries w).toList ++ compressLoopAbs rest (growEntries entries w c) [c]
    else (lookupCode entries w).toList

/-- The hash table `t` holds the seeds and `entries`, with the codes of
`lookupCode`, and has the unused slots that are left of its 16384. -/
structure DictInv (hasher : List Byte → Nat) (t : HashTable (List Byte) Int)
    (entries : List (List Byte)) : Prop where
  wf : t.WF
  reachable : t.Reachable hasher
  free_ge : 16384 ≤ t.free + 256 + entries.length
  get_eq : ∀ w, t.get hasher w = lookupCode entries w

/-- What `get` answers after the first `n` seeds were added. -/
def seedCode (n : Nat) (w : List Byte) : Option Int :=
  match w with
  | [b] => if b.val < n then some ((b.val : Nat) : Int) else none
  | _ => none

/-- The hash table holds the seeds and the pairs `pairs`, inserted in this
order with the codes 256, 257, ... -/
structure Tracked (hasher : List Byte → Nat) (t : HashTable (List Byte) Int)
    (next_code : Nat) (pairs : List (List Byte × Int)) : Prop where
  dict : DictInv hasher t (pairs.map Prod.fst)
  codes : ∀ j p, pairs[j]? = some p → p.2 = ((256 + j : Nat) : Int)
  next_eq : next_code = 256 + pairs.length
  length_le : pairs.length ≤ 3840

/-- The invariant of the loop of `decompress`. -/
structure DecodeInv (st : DecodeState) : Prop where
  length_eq : st.dictionary.length = 4096
  next_ge : 256 ≤ st.next_available_code
  next_le : st.next_available_code ≤ 4096
  seeds : ∀ i, i < 256 → st.dictionary.getD i [] = [Fin.ofNat i]
  filled : ∀ i, i < st.next_available_code → st.dictionary.getD i [] ≠ []
  unfilled : ∀ i, st.next_available_code ≤ i → st.dictionary.getD i [] = []
  previous_ne : st.previous_entry ≠ []

/-- The bytes of `text` that `compress` reads: the first byte, then the bytes up
to the first zero byte after it, that byte left out. -/
def readPart (text : List Byte) : List Byte :=
  match text with
  | [] => []
  | first :: rest => first :: rest.takeWhile (fun c => c ≠ 0)

/-- The decoder in state `st` is in step with an encoder that holds `entries`
and is building the string `w`: the entries the decoder has are the first
entries of the encoder, and the encoder is one entry ahead, the string
`previous_entry` followed by the first byte of `w`, unless both have reached
the ceiling. -/
structure Sync (entries : List (List Byte)) (w : List Byte) (st : DecodeState) : Prop where
  inv : DecodeInv st
  agree : ∀ j, 256 + j < st.next_available_code →
    entries[j]? = some (st.dictionary.getD (256 + j) [])
  ahead : (st.next_available_code < 4096 ∧
      256 + entries.length = st.next_available_code + 1 ∧
      entries[st.next_available_code - 256]? =
        some (st.previous_entry ++ [firstByte w])) ∨
    (st.next_available_code = 4096 ∧ entries.length = 3840)

/-! ## The table as a finite map, the seeding, and the accesses of the decoder -/

namespace HashTable

variable {K V : Type}

/-- The table after the insert operations `ops`, from first to last, on the
table that the constructor makes for `size`. -/
def addAll [DecidableEq K] (hasher : K → Nat) (size : Int) (ops : List (K × V)) :
    HashTable K V :=
  ops.foldl (fun t op => t.add hasher op.1 op.2) (new size)

/-- The finite map that the table stands for, in the words of the
specification: the value of the most recent insert of `key` among `ops`, and
`none` when `key` was never inserted. -/
def lastInsert [DecidableEq K] (ops : List (K × V)) (key : K) : Option V :=
  ops.foldl (fun found op => if op.1 = key then some op.2 else found) none

end HashTable

/-- The number of used slots. -/
def HashTable.used {K V : Type} (t : HashTable K V) : Nat := t.table.countP Option.isSome

/-- The dictionary of `compress` after the first `n` passes of the loop of
lines 83-85. -/
def seedDictionaryUpTo (hasher : List Byte → Nat) (n : Nat) : HashTable (List Byte) Int :=
  (List.range n).foldl
    (fun dictionary i => dictionary.add hasher [Fin.ofNat i] (i : Int))
    (HashTable.new 16384)

/-- The dictionary that the pass `s` leaves to the rest of the run: lines
118-120 call `add` exactly when `s.inserted` is a pair. -/
def EmitStep.grown (hasher : List Byte → Nat) (s : EmitStep) : HashTable (List Byte) Int :=
  match s.inserted with
  | some p => s.dictionary.add hasher p.1 p.2
  | none => s.dictionary

/-- The strings `current_entry` that the loop of `decompress` writes at line
179, one for each code it accepts, up to the first code it rejects. -/
def loopEntries : List Int → DecodeState → List (List Byte)
  | [], _ => []
  | current_code :: rest, st =>
    match currentEntry st current_code with
    | none => []
    | some current_entry => current_entry :: loopEntries rest (advance st current_entry)

/-- The strings that `decompress` writes, one for each code it accepts: the
string of the first code (line 157), then those of the loop. -/
def writtenEntries (numbers : List Int) : List (List Byte) :=
  match numbers with
  | [] => []
  | first :: rest =>
    if first < 0 ∨ first > 255 then []
    else (initialState first).previous_entry :: loopEntries rest (initialState first)

/-- An access of `decompress` to its table `dictionary` or to the first byte of
one of its strings. -/
inductive Access where
  /-- The read `dictionary[index]`. -/
  | tableRead (index : Int)
  /-- An assignment to `dictionary[index]`. -/
  | tableWrite (index : Int)
  /-- The read `s[0]` of the string `s`. -/
  | firstByteRead (s : List Byte)
  deriving DecidableEq, Repr

/-- The access is in range for a table of `size` slots: the index lies in
`0 .. size - 1`, the string is not empty. -/
def Access.inRange (size : Nat) : Access → Prop
  | Access.tableRead index => 0 ≤ index ∧ index < (size : Int)
  | Access.tableWrite index => 0 ≤ index ∧ index < (size : Int)
  | Access.firstByteRead s => s ≠ []

/-- The accesses of one pass of the loop of `decompress` (lines 164-187), in
the state `st` for the code `current_code`.  The test of line 167 reads
`dictionary[current_code]` only when the three comparisons before it hold;
line 168 reads it again; line 171 reads `previous_entry[0]`; line 183 reads
`current_entry[0]` and writes `dictionary[next_available_code]`. -/
def passAccesses (st : DecodeState) (current_code : Int) : List Access :=
  (if 0 ≤ current_code ∧ current_code < (st.next_available_code : Int) ∧
      current_code < (st.dictionary.length : Int) then
    [Access.tableRead current_code] else []) ++
  (if 0 ≤ current_code ∧ current_code < (st.next_available_code : Int) ∧
      current_code < (st.dictionary.length : Int) ∧
      st.dictionary.getD current_code.toNat [] ≠ [] then
    [Access.tableRead current_code]
  else if current_code = (st.next_available_code : Int) then
    [Access.firstByteRead st.previous_entry]
  else []) ++
  (match currentEntry st current_code with
  | some current_entry =>
    if st.next_available_code < 4096 then
      [Access.firstByteRead current_entry,
        Access.tableWrite (st.next_available_code : Int)]
    else []
  | none => [])

/-- The accesses of the loop of `decompress`, pass after pass, up to the first
rejected code. -/
def loopAccesses : List Int → DecodeState → List Access
  | [], _ => []
  | current_code :: rest, st =>
    passAccesses st current_code ++
      (match currentEntry st current_code with
      | none => []
      | some current_entry => loopAccesses rest (advance st current_entry))

/-- The accesses of a run of `decompress`: the 256 writes of line 140, the read
of line 156 when the first code is accepted, then those of the loop. -/
def decompressAccesses (numbers : List Int) : List Access :=
  (List.range 256).map (fun (i : Nat) => Access.tableWrite (i : Int)) ++
  (match numbers with
  | [] => []
  | first :: rest =>
    if first < 0 ∨ first > 255 then []
    else Access.tableRead first :: loopAccesses rest (initialState first))

/-! ## Facts about the hash table -/

namespace HashTable

variable {K V : Type}

theorem step_mod (n s d : Nat) : ((s + d) % n + 1) % n = (s + d + 1) % n := by
  simp [Nat.add_mod]

theorem add_mod_eq (n s e : Nat) (hs : s < n) (he : e < n) :
    (s + e) % n = if s + e < n then s + e else s + e - n := by
  split
  · rename_i h; exact Nat.mod_eq_of_lt h
  · rename_i h
    rw [Nat.mod_eq_sub_mod (by omega), Nat.mod_eq_of_lt (by omega)]

theorem add_mod_ne_start (n s e : Nat) (hs : s < n) (he : e < n) (hpos : 0 < e) :
    (s + e) % n ≠ s := by
  rw [add_mod_eq n s e hs he]
  split <;> omega

theorem add_mod_size (n s : Nat) (hs : s < n) : (s + n) % n = s := by
  rw [Nat.add_mod_right, Nat.mod_eq_of_lt hs]

theorem add_mod_inj (n s e1 e2 : Nat) (hs : s < n) (h1 : e1 < n) (h2 : e2 < n)
    (h : (s + e1) % n = (s + e2) % n) : e1 = e2 := by
  rw [add_mod_eq n s e1 hs h1, add_mod_eq n s e2 hs h2] at h
  split at h <;> split at h <;> omega

theorem add_mod_surj (n s i : Nat) (hs : s < n) (hi : i < n) :
    ∃ e, e < n ∧ (s + e) % n = i := by
  by_cases h : s ≤ i
  · refine ⟨i - s, by omega, ?_⟩
    rw [add_mod_eq n s (i - s) hs (by omega)]
    split <;> omega
  · refine ⟨i + n - s, by omega, ?_⟩
    rw [add_mod_eq n s (i + n - s) hs (by omega)]
    split <;> omega

theorem hash_lt (hasher : K → Nat) (t : HashTable K V) (hwf : t.WF) (key : K) :
    t.hash hasher key < t.table_size :=
  Nat.mod_lt _ hwf.size_pos

theorem slot_lt (t : HashTable K V) (i : Nat) (x : K × V) (h : t.slot i = some x) :
    i < t.table.length := by
  unfold slot at h
  by_contra hcon
  rw [List.getElem?_eq_none (by omega)] at h
  simp at h

theorem not_busy_iff (t : HashTable K V) (key : K) (spot : Nat) :
    ¬ t.Busy key spot ↔ t.slot spot = none ∨ ∃ v, t.slot spot = some (key, v) := by
  unfold Busy
  constructor
  · intro h
    cases hs : t.slot spot with
    | none => exact Or.inl rfl
    | some x =>
      obtain ⟨k, v⟩ := x
      right
      by_cases hk : k = key
      · exact ⟨v, by rw [hk]⟩
      · exact absurd ⟨k, v, hs, hk⟩ h
  · rintro (h | ⟨v, h⟩) ⟨k, w, hk, hne⟩
    · rw [h] at hk; cases hk
    · rw [h] at hk
      simp only [Option.some.injEq, Prod.mk.injEq] at hk
      exact hne hk.1.symm

/-- The loop of `add`, started `d` slots after `start` with fuel for the
`table_size - d` slots left, either meets only busy slots and returns at
`start`, or stops at the first slot that is not busy.  It never runs out of
fuel. -/
theorem addProbe_cases [DecidableEq K] (t : HashTable K V) (key : K) (s : Nat)
    (hs : s < t.table_size) :
    ∀ fuel d, d + fuel = t.table_size → 0 < fuel →
      (addProbe t key s fuel ((s + d) % t.table_size) = ProbeResult.full ∧
        ∀ e, d ≤ e → e < t.table_size → t.Busy key ((s + e) % t.table_size)) ∨
      (∃ j, d ≤ j ∧ j < t.table_size ∧
        addProbe t key s fuel ((s + d) % t.table_size) =
          ProbeResult.stop ((s + j) % t.table_size) ∧
        ¬ t.Busy key ((s + j) % t.table_size) ∧
        ∀ e, d ≤ e → e < j → t.Busy key ((s + e) % t.table_size)) := by
  intro fuel
  induction fuel with
  | zero => intro d _ h; omega
  | succ f ih =>
    intro d hd _
    have hstop : ¬ t.Busy key ((s + d) % t.table_size) →
        addProbe t key s (f + 1) ((s + d) % t.table_size) =
          ProbeResult.stop ((s + d) % t.table_size) := by
      intro hnb
      rcases (not_busy_iff t key _).mp hnb with h | ⟨v, h⟩
      · simp [addProbe, h]
      · simp [addProbe, h]
    by_cases hb : t.Busy key ((s + d) % t.table_size)
    · obtain ⟨k, v, hk, hne⟩ := hb
      have hbusy : t.Busy key ((s + d) % t.table_size) := ⟨k, v, hk, hne⟩
      by_cases hlast : d + 1 = t.table_size
      · left
        constructor
        · have : (s + d + 1) % t.table_size = s := by
            rw [Nat.add_assoc, hlast]; exact add_mod_size _ _ hs
          simp [addProbe, hk, hne, step_mod, this]
        · intro e he1 he2
          have : e = d := by omega
          rw [this]; exact hbusy
      · have hne2 : (s + (d + 1)) % t.table_size ≠ s :=
          add_mod_ne_start _ _ _ hs (by omega) (by omega)
        have hrec : addProbe t key s (f + 1) ((s + d) % t.table_size) =
            addProbe t key s f ((s + (d + 1)) % t.table_size) := by
          simp [addProbe, hk, hne, step_mod, hne2, Nat.add_assoc]
        rw [hrec]
        rcases ih (d + 1) (by omega) (by omega) with ⟨h1, h2⟩ | ⟨j, hj1, hj2, hj3, hj4, hj5⟩
        · left
          refine ⟨h1, ?_⟩
          intro e he1 he2
          by_cases hed : e = d
          · rw [hed]; exact hbusy
          · exact h2 e (by omega) he2
        · right
          refine ⟨j, by omega, hj2, hj3, hj4, ?_⟩
          intro e he1 he2
          by_cases hed : e = d
          · rw [hed]; exact hbusy
          · exact hj5 e (by omega) he2
    · right
      exact ⟨d, Nat.le_refl _, by omega, hstop hb, hb, fun e h1 h2 => by omega⟩

/-- The loop of `get`, started `d` slots after `start` with fuel for the
`table_size - d` slots left, answers from the first slot that is not busy, or
returns at `start` when there is none.  It never runs out of fuel. -/
theorem getProbe_cases [DecidableEq K] (t : HashTable K V) (key : K) (s : Nat)
    (hs : s < t.table_size) :
    ∀ fuel d, d + fuel = t.table_size → 0 < fuel →
      (∃ j v, d ≤ j ∧ j < t.table_size ∧
        getProbe t key s fuel ((s + d) % t.table_size) = LookupResult.found v ∧
        t.slot ((s + j) % t.table_size) = some (key, v) ∧
        ∀ e, d ≤ e → e < j → t.Busy key ((s + e) % t.table_size)) ∨
      (getProbe t key s fuel ((s + d) % t.table_size) = LookupResult.missing ∧
        ((∃ j, d ≤ j ∧ j < t.table_size ∧ t.slot ((s + j) % t.table_size) = none ∧
          ∀ e, d ≤ e → e < j → t.Busy key ((s + e) % t.table_size)) ∨
        ∀ e, d ≤ e → e < t.table_size → t.Busy key ((s + e) % t.table_size))) := by
  intro fuel
  induction fuel with
  | zero => intro d _ h; omega
  | succ f ih =>
    intro d hd _
    by_cases hb : t.Busy key ((s + d) % t.table_size)
    · obtain ⟨k, v, hk, hne⟩ := hb
      have hbusy : t.Busy key ((s + d) % t.table_size) := ⟨k, v, hk, hne⟩
      by_cases hlast : d + 1 = t.table_size
      · right
        constructor
        · have : (s + d + 1) % t.table_size = s := by
            rw [Nat.add_assoc, hlast]; exact add_mod_size _ _ hs
          simp [getProbe, hk, hne, step_mod, this]
        · right
          intro e he1 he2
          have : e = d := by omega
          rw [this]; exact hbusy
      · have hne2 : (s + (d + 1)) % t.table_size ≠ s :=
          add_mod_ne_start _ _ _ hs (by omega) (by omega)
        have hrec : getProbe t key s (f + 1) ((s + d) % t.table_size) =
            getProbe t key s f ((s + (d + 1)) % t.table_size) := by
          simp [getProbe, hk, hne, step_mod, hne2, Nat.add_assoc]
        rw [hrec]
        have hext : ∀ j, (∀ e, d + 1 ≤ e → e < j → t.Busy key ((s + e) % t.table_size)) →
            ∀ e, d ≤ e → e < j → t.Busy key ((s + e) % t.table_size) := by
          intro j hj e he1 he2
          by_cases hed : e = d
          · rw [hed]; exact hbusy
          · exact hj e (by omega) he2
        rcases ih (d + 1) (by omega) (by omega) with
          ⟨j, w, hj1, hj2, hj3, hj4, hj5⟩ | ⟨h1, ⟨j, hj1, hj2, hj3, hj4⟩ | h2⟩
        · left
          exact ⟨j, w, by omega, hj2, hj3, hj4, hext j hj5⟩
        · right
          exact ⟨h1, Or.inl ⟨j, by omega, hj2, hj3, hext j hj4⟩⟩
        · right
          exact ⟨h1, Or.inr (hext _ h2)⟩
    · rcases (not_busy_iff t key _).mp hb with h | ⟨v, h⟩
      · right
        refine ⟨by simp [getProbe, h], Or.inl ⟨d, Nat.le_refl _, by omega, h, ?_⟩⟩
        intro e h1 h2; omega
      · left
        refine ⟨d, v, Nat.le_refl _, by omega, by simp [getProbe, h], h, ?_⟩
        intro e h1 h2; omega

/-- The loop of `add` ends within the fuel `table_size` that `add` gives it. -/
theorem addProbe_terminates [DecidableEq K] (hasher : K → Nat) (t : HashTable K V)
    (hwf : t.WF) (key : K) :
    addProbe t key (t.hash hasher key) t.table_size (t.hash hasher key) ≠
      ProbeResult.exhausted := by
  have hs := hash_lt hasher t hwf key
  have h0 : (t.hash hasher key + 0) % t.table_size = t.hash hasher key :=
    Nat.mod_eq_of_lt hs
  have hc := addProbe_cases t key _ hs t.table_size 0 (by omega) hwf.size_pos
  rw [h0] at hc
  rcases hc with ⟨h1, _⟩ | ⟨j, _, _, h1, _, _⟩ <;> rw [h1] <;> simp

/-- The loop of `get` ends within the fuel `table_size` that `get` gives it. -/
theorem getProbe_terminates [DecidableEq K] (hasher : K → Nat) (t : HashTable K V)
    (hwf : t.WF) (key : K) :
    getProbe t key (t.hash hasher key) t.table_size (t.hash hasher key) ≠
      LookupResult.exhausted := by
  have hs := hash_lt hasher t hwf key
  have h0 : (t.hash hasher key + 0) % t.table_size = t.hash hasher key :=
    Nat.mod_eq_of_lt hs
  have hc := getProbe_cases t key _ hs t.table_size 0 (by omega) hwf.size_pos
  rw [h0] at hc
  rcases hc with ⟨j, v, _, _, h1, _, _⟩ | ⟨h1, _⟩ <;> rw [h1] <;> simp

/-- What `get` returns is stored in some slot under the key. -/
theorem slot_of_get [DecidableEq K] (hasher : K → Nat) (t : HashTable K V) (hwf : t.WF)
    (key : K) (v : V) (h : t.get hasher key = some v) : ∃ i, t.slot i = some (key, v) := by
  have hs := hash_lt hasher t hwf key
  have h0 : (t.hash hasher key + 0) % t.table_size = t.hash hasher key :=
    Nat.mod_eq_of_lt hs
  have hc := getProbe_cases t key _ hs t.table_size 0 (by omega) hwf.size_pos
  rw [h0] at hc
  unfold get at h
  rcases hc with ⟨j, w, _, _, hj3, hj4, _⟩ | ⟨h1, _⟩
  · simp only [hj3, Option.some.injEq] at h
    exact ⟨_, by rw [hj4, h]⟩
  · simp [h1] at h

/-- In a table whose keys are reachable, `get` finds what a slot stores. -/
theorem get_of_slot [DecidableEq K] (hasher : K → Nat) (t : HashTable K V) (hwf : t.WF)
    (hr : t.Reachable hasher) (i : Nat) (key : K) (v : V) (h : t.slot i = some (key, v)) :
    t.get hasher key = some v := by
  have hs := hash_lt hasher t hwf key
  have h0 : (t.hash hasher key + 0) % t.table_size = t.hash hasher key :=
    Nat.mod_eq_of_lt hs
  obtain ⟨j, hj1, hj2, hj3⟩ := hr i key v h
  rw [hj2] at h
  have hnb : ¬ t.Busy key ((t.hash hasher key + j) % t.table_size) :=
    (not_busy_iff t key _).mpr (Or.inr ⟨v, h⟩)
  have hc := getProbe_cases t key _ hs t.table_size 0 (by omega) hwf.size_pos
  rw [h0] at hc
  unfold get
  rcases hc with ⟨j2, w, _, hk2, hk3, hk4, hk5⟩ | ⟨_, ⟨j2, _, hk2, hk3, hk4⟩ | h2⟩
  · have hjj : j2 = j := by
      rcases Nat.lt_trichotomy j2 j with hlt | heq | hgt
      · obtain ⟨k, w2, hkw, hne⟩ := hj3 j2 hlt
        rw [hk4] at hkw
        simp only [Option.some.injEq, Prod.mk.injEq] at hkw
        exact absurd hkw.1.symm hne
      · exact heq
      · exact absurd (hk5 j (by omega) hgt) hnb
    rw [hjj, h] at hk4
    simp only [Option.some.injEq, Prod.mk.injEq, true_and] at hk4
    simp [hk3, hk4]
  · exfalso
    rcases Nat.lt_trichotomy j2 j with hlt | heq | hgt
    · obtain ⟨k, w2, hkw, _⟩ := hj3 j2 hlt
      rw [hk3] at hkw; cases hkw
    · rw [heq, h] at hk3; cases hk3
    · exact hnb (hk4 j (by omega) hgt)
  · exact absurd (h2 j (by omega) hj1) hnb

theorem slot_set (t : HashTable K V) (p : Nat) (x : Option (K × V)) (hp : p < t.table.length)
    (i : Nat) :
    ({ t with table := t.table.set p x } : HashTable K V).slot i =
      if i = p then x else t.slot i := by
  unfold slot
  simp only [List.getElem?_set]
  by_cases h : p = i
  · subst h; simp [hp]
  · have h2 : ¬ i = p := fun hh => h hh.symm
    simp [h, h2]

/-- What `add` does to the table: nothing when every slot is busy, else it
writes the first slot of the walk that is not busy. -/
theorem add_cases [DecidableEq K] (hasher : K → Nat) (t : HashTable K V) (hwf : t.WF)
    (key : K) (value : V) :
    (t.add hasher key value = t ∧
      ∀ i, i < t.table_size → t.Busy key i) ∨
    (∃ j, j < t.table_size ∧
      t.add hasher key value =
        { t with table :=
            (t.table.set ((t.hash hasher key + j) % t.table_size) (some (key, value))) } ∧
      ¬ t.Busy key ((t.hash hasher key + j) % t.table_size) ∧
      ∀ e, e < j → t.Busy key ((t.hash hasher key + e) % t.table_size)) := by
  have hs := hash_lt hasher t hwf key
  have h0 : (t.hash hasher key + 0) % t.table_size = t.hash hasher key :=
    Nat.mod_eq_of_lt hs
  have hc := addProbe_cases t key _ hs t.table_size 0 (by omega) hwf.size_pos
  rw [h0] at hc
  rcases hc with ⟨h1, h2⟩ | ⟨j, _, hj2, hj3, hj4, hj5⟩
  · left
    refine ⟨by simp [add, h1], ?_⟩
    intro i hi
    obtain ⟨e, he1, he2⟩ := add_mod_surj _ _ i hs hi
    rw [← he2]
    exact h2 e (by omega) he1
  · right
    exact ⟨j, hj2, by simp [add, hj3], hj4, fun e he => hj5 e (by omega) he⟩

theorem add_table_size [DecidableEq K] (hasher : K → Nat) (t : HashTable K V)
    (key : K) (value : V) : (t.add hasher key value).table_size = t.table_size := by
  unfold add
  simp only
  split <;> rfl

theorem add_wf [DecidableEq K] (hasher : K → Nat) (t : HashTable K V) (hwf : t.WF)
    (key : K) (value : V) : (t.add hasher key value).WF := by
  refine ⟨?_, by rw [add_table_size]; exact hwf.size_pos⟩
  rw [add_table_size]
  unfold add
  simp only
  split
  · simp [hwf.length_eq]
  · exact hwf.length_eq
  · exact hwf.length_eq

theorem busy_set (t : HashTable K V) (p : Nat) (key : K) (value : V)
    (hp : p < t.table.length) (k : K) (q : Nat) :
    ({ t with table := t.table.set p (some (key, value)) } : HashTable K V).Busy k q ↔
      if q = p then key ≠ k else t.Busy k q := by
  unfold Busy
  simp only [slot_set t p _ hp]
  by_cases h : q = p
  · simp only [h, if_true, Option.some.injEq, Prod.mk.injEq]
    constructor
    · rintro ⟨k1, v1, ⟨h1, _⟩, h2⟩
      rw [h1]; exact h2
    · intro h1
      exact ⟨key, value, ⟨rfl, rfl⟩, h1⟩
  · simp only [h, if_false]

/-- The keys stay reachable when `add` stores a pair. -/
theorem add_reachable [DecidableEq K] (hasher : K → Nat) (t : HashTable K V) (hwf : t.WF)
    (hr : t.Reachable hasher) (key : K) (value : V) :
    (t.add hasher key value).Reachable hasher := by
  have hs := hash_lt hasher t hwf key
  rcases add_cases hasher t hwf key value with ⟨h1, _⟩ | ⟨j, hj1, hj2, hj3, hj4⟩
  · rw [h1]; exact hr
  · rw [hj2]
    have hp : (t.hash hasher key + j) % t.table_size < t.table.length := by
      rw [hwf.length_eq]; exact Nat.mod_lt _ hwf.size_pos
    intro i k v hslot
    rw [slot_set t _ _ hp] at hslot
    show ∃ j2, j2 < t.table_size ∧ i = (hasher k % t.table_size + j2) % t.table_size ∧
      ∀ e, e < j2 → Busy _ k ((hasher k % t.table_size + e) % t.table_size)
    by_cases hi : i = (t.hash hasher key + j) % t.table_size
    · simp only [hi, if_true, Option.some.injEq, Prod.mk.injEq] at hslot
      obtain ⟨hk, _⟩ := hslot
      subst hk
      refine ⟨j, hj1, hi, ?_⟩
      intro e he
      rw [busy_set t _ _ _ hp]
      have hne : (t.hash hasher key + e) % t.table_size ≠
          (t.hash hasher key + j) % t.table_size := by
        intro heq
        have := add_mod_inj _ _ _ _ hs (by omega) hj1 heq
        omega
      have hne2 : (hasher key % t.table_size + e) % t.table_size ≠
          (t.hash hasher key + j) % t.table_size := hne
      simp only [hne2, if_false]
      exact hj4 e he
    · simp only [hi, if_false] at hslot
      obtain ⟨j2, hk1, hk2, hk3⟩ := hr i k v hslot
      refine ⟨j2, hk1, hk2, ?_⟩
      intro e he
      rw [busy_set t _ _ _ hp]
      have hb := hk3 e he
      by_cases hq : (hasher k % t.table_size + e) % t.table_size =
          (t.hash hasher key + j) % t.table_size
      · simp only [hq, if_true]
        intro hkey
        subst hkey
        apply hj3
        have hq2 : (t.hash hasher key + e) % t.table_size =
          (t.hash hasher key + j) % t.table_size := hq
        rw [← hq2]
        exact hb
      · simp only [hq, if_false]
        exact hb

/-- After `add` stored the pair, `get` answers `value` for `key` and what it
answered before for every other key.  The pair is stored as soon as some slot
is unused or holds `key`. -/
theorem get_add [DecidableEq K] (hasher : K → Nat) (t : HashTable K V) (hwf : t.WF)
    (hr : t.Reachable hasher) (key : K) (value : V)
    (hroom : ∃ i, i < t.table_size ∧ ¬ t.Busy key i) (key2 : K) :
    (t.add hasher key value).get hasher key2 =
      if key2 = key then some value else t.get hasher key2 := by
  have hwf2 := add_wf hasher t hwf key value
  have hr2 := add_reachable hasher t hwf hr key value
  rcases add_cases hasher t hwf key value with ⟨_, h2⟩ | ⟨j, hj1, hj2, hj3, _⟩
  · obtain ⟨i, hi1, hi2⟩ := hroom
    exact absurd (h2 i hi1) hi2
  · have hp : (t.hash hasher key + j) % t.table_size < t.table.length := by
      rw [hwf.length_eq]; exact Nat.mod_lt _ hwf.size_pos
    have hslot : ∀ i, (t.add hasher key value).slot i =
        if i = (t.hash hasher key + j) % t.table_size then some (key, value)
        else t.slot i := by
      intro i; rw [hj2]; exact slot_set t _ _ hp i
    by_cases hk : key2 = key
    · simp only [hk, if_true]
      apply get_of_slot hasher _ hwf2 hr2 ((t.hash hasher key + j) % t.table_size)
      rw [hslot]; simp
    · simp only [hk, if_false]
      apply Option.ext
      intro w
      simp only [Option.mem_def]
      constructor
      · intro h
        obtain ⟨i, hi⟩ := slot_of_get hasher _ hwf2 key2 w h
        rw [hslot] at hi
        by_cases hip : i = (t.hash hasher key + j) % t.table_size
        · simp only [hip, if_true, Option.some.injEq, Prod.mk.injEq] at hi
          exact absurd hi.1.symm hk
        · simp only [hip, if_false] at hi
          exact get_of_slot hasher t hwf hr i key2 w hi
      · intro h
        obtain ⟨i, hi⟩ := slot_of_get hasher t hwf key2 w h
        have hip : i ≠ (t.hash hasher key + j) % t.table_size := by
          intro hip
          rw [hip] at hi
          exact hj3 ⟨key2, w, hi, hk⟩
        apply get_of_slot hasher _ hwf2 hr2 i
        rw [hslot]
        simp only [hip, if_false]
        exact hi

/-- One `add` uses up at most one unused slot. -/
theorem add_free [DecidableEq K] (hasher : K → Nat) (t : HashTable K V) (hwf : t.WF)
    (key : K) (value : V) : t.free ≤ (t.add hasher key value).free + 1 := by
  rcases add_cases hasher t hwf key value with ⟨h1, _⟩ | ⟨j, _, hj2, _, _⟩
  · rw [h1]; omega
  · have hp : (t.hash hasher key + j) % t.table_size < t.table.length := by
      rw [hwf.length_eq]; exact Nat.mod_lt _ hwf.size_pos
    rw [hj2]
    unfold free
    simp only [List.countP_set _ _ _ _ hp, Option.isNone_some]
    split <;> omega

theorem exists_unused [DecidableEq K] (t : HashTable K V) (hwf : t.WF) (h : 0 < t.free) :
    ∃ i, i < t.table_size ∧ t.slot i = none := by
  unfold free at h
  obtain ⟨a, ha1, ha2⟩ := List.countP_pos_iff.mp h
  obtain ⟨i, hi, hia⟩ := List.getElem_of_mem ha1
  refine ⟨i, by rw [← hwf.length_eq]; exact hi, ?_⟩
  unfold slot
  rw [List.getElem?_eq_getElem hi, hia]
  cases a with
  | none => rfl
  | some x => simp at ha2

/-- An unused slot leaves room for every key. -/
theorem room_of_free [DecidableEq K] (t : HashTable K V) (hwf : t.WF) (h : 0 < t.free)
    (key : K) : ∃ i, i < t.table_size ∧ ¬ t.Busy key i := by
  obtain ⟨i, hi1, hi2⟩ := exists_unused t hwf h
  exact ⟨i, hi1, (not_busy_iff t key i).mpr (Or.inl hi2)⟩

theorem new_table_size (size : Int) :
    (new size : HashTable K V).table_size = if size ≤ 0 then 16384 else size.toNat := rfl

theorem new_slot (size : Int) (i : Nat) : (new size : HashTable K V).slot i = none := by
  unfold slot new
  simp only [List.getElem?_replicate]
  split <;> split <;> rfl

theorem new_wf (size : Int) : (new size : HashTable K V).WF := by
  constructor
  · simp [new]
  · rw [new_table_size]
    split <;> omega

theorem new_reachable (hasher : K → Nat) (size : Int) :
    (new size : HashTable K V).Reachable hasher := by
  intro i k v h
  rw [new_slot] at h
  cases h

theorem new_free (size : Int) :
    (new size : HashTable K V).free = (new size : HashTable K V).table_size := by
  unfold free new
  simp only [List.countP_replicate, Option.isNone_none, if_true]

theorem new_get [DecidableEq K] (hasher : K → Nat) (size : Int) (key : K) :
    (new size : HashTable K V).get hasher key = none := by
  cases h : (new size : HashTable K V).get hasher key with
  | none => rfl
  | some v =>
    obtain ⟨i, hi⟩ := slot_of_get hasher _ (new_wf size) key v h
    rw [new_slot] at hi
    cases hi

end HashTable

/-! ## The encoder on the list of entries -/

theorem entryIndex_append (w x : List Byte) (es : List (List Byte)) :
    entryIndex w (es ++ [x]) =
      match entryIndex w es with
      | some j => some j
      | none => if x = w then some es.length else none := by
  induction es with
  | nil => simp [entryIndex]
  | cons e es ih =>
    have h1 : entryIndex w (e :: (es ++ [x])) =
        if e = w then some 0 else (entryIndex w (es ++ [x])).map (· + 1) := rfl
    have h2 : entryIndex w (e :: es) =
        if e = w then some 0 else (entryIndex w es).map (· + 1) := rfl
    rw [List.cons_append, h1, h2]
    by_cases he : e = w
    · simp [he]
    · rw [if_neg he, if_neg he, ih]
      cases entryIndex w es with
      | some j => rfl
      | none =>
        by_cases hx : x = w
        · simp [hx]
        · simp [hx]

theorem entryIndex_some (w : List Byte) (es : List (List Byte)) (j : Nat)
    (h : entryIndex w es = some j) : j < es.length ∧ es[j]? = some w := by
  induction es generalizing j with
  | nil => simp [entryIndex] at h
  | cons e es ih =>
    simp only [entryIndex] at h
    by_cases he : e = w
    · simp only [he, if_true, Option.some.injEq] at h
      subst h
      simp [he]
    · simp only [he, if_false, Option.map_eq_some'] at h
      obtain ⟨i, hi1, hi2⟩ := h
      subst hi2
      obtain ⟨h1, h2⟩ := ih i hi1
      refine ⟨by simp only [List.length_cons]; omega, ?_⟩
      rw [List.getElem?_cons_succ]
      exact h2

theorem lookupCode_nil (w : List Byte) : lookupCode [] w = seedCode 256 w := by
  unfold lookupCode seedCode
  split
  · rename_i b; simp [b.isLt]
  · simp [entryIndex]

theorem lookupCode_single (entries : List (List Byte)) (b : Byte) :
    lookupCode entries [b] = some ((b.val : Nat) : Int) := rfl

theorem lookupCode_of_not_single (entries : List (List Byte)) (w : List Byte)
    (hw : ∀ b, w ≠ [b]) :
    lookupCode entries w = (entryIndex w entries).map (fun j => ((256 + j : Nat) : Int)) := by
  unfold lookupCode
  split
  · rename_i b; exact absurd rfl (hw b)
  · rfl

theorem lookupCode_eq_none (entries : List (List Byte)) (w : List Byte)
    (h : lookupCode entries w = none) : entryIndex w entries = none ∧ ∀ b, w ≠ [b] := by
  have hs : ∀ b, w ≠ [b] := by
    intro b hb
    rw [hb, lookupCode_single] at h
    cases h
  rw [lookupCode_of_not_single _ _ hs] at h
  exact ⟨by simpa using h, hs⟩

/-- Appending a string that was not in the dictionary gives it the next code
and leaves the other codes as they were. -/
theorem lookupCode_append (entries : List (List Byte)) (x w : List Byte)
    (hx : lookupCode entries x = none) :
    lookupCode (entries ++ [x]) w =
      if w = x then some ((256 + entries.length : Nat) : Int) else lookupCode entries w := by
  obtain ⟨hx1, hx2⟩ := lookupCode_eq_none entries x hx
  by_cases hwx : w = x
  · subst hwx
    rw [if_pos rfl, lookupCode_of_not_single _ _ hx2, entryIndex_append, hx1]
    simp
  · rw [if_neg hwx]
    by_cases hs : ∃ b, w = [b]
    · obtain ⟨b, rfl⟩ := hs
      rfl
    · have hs2 : ∀ b, w ≠ [b] := fun b hb => hs ⟨b, hb⟩
      have hxw : ¬ x = w := fun h => hwx h.symm
      rw [lookupCode_of_not_single _ _ hs2, lookupCode_of_not_single _ _ hs2,
        entryIndex_append]
      cases entryIndex w entries with
      | some j => rfl
      | none => simp [hxw]

/-- A code of the dictionary is the byte of a one-byte string or the code
`256 + j` of an entry of index `j` equal to the string. -/
theorem lookupCode_eq_some (entries : List (List Byte)) (w : List Byte) (code : Int)
    (h : lookupCode entries w = some code) :
    (∃ b : Byte, w = [b] ∧ code = ((b.val : Nat) : Int)) ∨
    (∃ j, j < entries.length ∧ entries[j]? = some w ∧ code = ((256 + j : Nat) : Int)) := by
  by_cases hs : ∃ b, w = [b]
  · obtain ⟨b, rfl⟩ := hs
    left
    rw [lookupCode_single] at h
    exact ⟨b, rfl, by simpa using h.symm⟩
  · have hs2 : ∀ b, w ≠ [b] := fun b hb => hs ⟨b, hb⟩
    rw [lookupCode_of_not_single _ _ hs2] at h
    simp only [Option.map_eq_some'] at h
    obtain ⟨j, hj1, hj2⟩ := h
    obtain ⟨h1, h2⟩ := entryIndex_some w entries j hj1
    right
    exact ⟨j, h1, h2, hj2.symm⟩

theorem seedFoldDict_inv (hasher : List Byte → Nat) (n : Nat) (hn : n ≤ 256) :
    let t := (List.range n).foldl
      (fun dictionary i => dictionary.add hasher [Fin.ofNat i] (i : Int))
      (HashTable.new 16384 : HashTable (List Byte) Int)
    t.WF ∧ t.Reachable hasher ∧ 16384 ≤ t.free + n ∧ ∀ w, t.get hasher w = seedCode n w := by
  induction n with
  | zero =>
    refine ⟨HashTable.new_wf _, HashTable.new_reachable _ _, ?_, ?_⟩
    · simp only [List.range_zero, List.foldl_nil]
      rw [HashTable.new_free, HashTable.new_table_size]
      simp
    · intro w
      simp only [List.range_zero, List.foldl_nil]
      rw [HashTable.new_get]
      unfold seedCode
      split <;> simp
  | succ n ih =>
    obtain ⟨h1, h2, h3, h4⟩ := ih (by omega)
    simp only [List.range_succ, List.foldl_append, List.foldl_cons, List.foldl_nil]
    refine ⟨HashTable.add_wf _ _ h1 _ _, HashTable.add_reachable _ _ h1 h2 _ _, ?_, ?_⟩
    · have := HashTable.add_free hasher _ h1 [Fin.ofNat n] (n : Int)
      omega
    · intro w
      rw [HashTable.get_add hasher _ h1 h2 _ _ (HashTable.room_of_free _ h1 (by omega) _), h4]
      have hval : ((Fin.ofNat n : Byte).val : Nat) = n := by
        simp only [Fin.ofNat]
        exact Nat.mod_eq_of_lt (by omega)
      by_cases hw : w = [Fin.ofNat n]
      · rw [if_pos hw, hw]
        simp only [seedCode, hval]
        simp
      · rw [if_neg hw]
        unfold seedCode
        split
        · rename_i b
          have hb : b.val ≠ n := by
            intro hb
            apply hw
            congr 1
            apply Fin.ext
            rw [hval, hb]
          have hiff : b.val < n + 1 ↔ b.val < n := by omega
          simp only [hiff]
        · rfl

theorem seedDictionary_inv (hasher : List Byte → Nat) :
    DictInv hasher (seedDictionary hasher) [] := by
  obtain ⟨h1, h2, h3, h4⟩ := seedFoldDict_inv hasher 256 (Nat.le_refl _)
  refine ⟨h1, h2, ?_, ?_⟩
  · simp only [List.length_nil]; exact h3
  · intro w; rw [lookupCode_nil]; exact h4 w

/-- The loop of `compress` on a hash table that holds `entries` writes the
codes of the loop on `entries`, whatever the hash function. -/
theorem compressLoop_eq_abs (hasher : List Byte → Nat) (rest : List Byte) :
    ∀ (t : HashTable (List Byte) Int) (entries : List (List Byte)) (next_code : Nat)
      (w : List Byte), DictInv hasher t entries → next_code = 256 + entries.length →
      entries.length ≤ 3840 →
      compressLoop hasher rest t next_code w = compressLoopAbs rest entries w := by
  induction rest with
  | nil =>
    intro t entries next_code w hinv _ _
    simp only [compressLoop, compressLoopAbs, emitCode, hinv.get_eq]
    cases lookupCode entries w <;> rfl
  | cons c rest ih =>
    intro t entries next_code w hinv hnext hlen
    have hemit : emitCode hasher t w = (lookupCode entries w).toList := by
      simp only [emitCode, hinv.get_eq]
      cases lookupCode entries w <;> rfl
    by_cases hc : c = 0
    · simp [compressLoop, compressLoopAbs, hc, hemit]
    · by_cases hfound : (lookupCode entries (w ++ [c])).isSome = true
      · simp only [compressLoop, compressLoopAbs, hc, hinv.get_eq, hfound, ne_eq,
          not_false_eq_true, and_self, if_true]
        exact ih t entries next_code (w ++ [c]) hinv hnext hlen
      · have hnone : lookupCode entries (w ++ [c]) = none := by
          cases h : lookupCode entries (w ++ [c]) with
          | none => rfl
          | some x => simp [h] at hfound
        by_cases hroom : next_code < 4096
        · have hroom2 : 256 + entries.length < 4096 := by omega
          have hfree := hinv.free_ge
          have hinv2 : DictInv hasher (t.add hasher (w ++ [c]) (next_code : Int))
              (entries ++ [w ++ [c]]) := by
            refine ⟨HashTable.add_wf _ _ hinv.wf _ _,
              HashTable.add_reachable _ _ hinv.wf hinv.reachable _ _, ?_, ?_⟩
            · have := HashTable.add_free hasher t hinv.wf (w ++ [c]) (next_code : Int)
              simp only [List.length_append, List.length_singleton]
              omega
            · intro w2
              rw [HashTable.get_add hasher t hinv.wf hinv.reachable _ _
                (HashTable.room_of_free _ hinv.wf (by omega) _),
                lookupCode_append _ _ _ hnone, hinv.get_eq, hnext]
          have key := ih _ (entries ++ [w ++ [c]]) (next_code + 1) [c] hinv2
            (by simp only [List.length_append, List.length_singleton]; omega)
            (by simp only [List.length_append, List.length_singleton]; omega)
          simp only [compressLoop, compressLoopAbs, hc, hinv.get_eq, hfound, ne_eq,
            not_false_eq_true, and_true, true_and, if_true, if_false, hemit, hroom,
            growEntries, hroom2, key, Bool.false_eq_true]
        · have hroom2 : ¬ 256 + entries.length < 4096 := by omega
          have key := ih t entries next_code [c] hinv hnext hlen
          simp only [compressLoop, compressLoopAbs, hc, hinv.get_eq, hfound, ne_eq,
            not_false_eq_true, and_true, true_and, if_true, if_false, hemit, hroom,
            growEntries, hroom2, key, Bool.false_eq_true]

/-- The codes of `compress` do not depend on the hash function: they are the
codes of the loop on the list of entries. -/
theorem compress_eq_abs (hasher : List Byte → Nat) (first : Byte) (rest : List Byte) :
    compress hasher (first :: rest) = compressLoopAbs rest [] [first] := by
  simp only [compress]
  exact compressLoop_eq_abs hasher rest _ [] 256 [first] (seedDictionary_inv hasher)
    (by simp) (by simp)

/-! ## The passes that write a code -/

/-- The codes of the loop are the codes written by the recorded passes. -/
theorem compressLoop_eq_steps (hasher : List Byte → Nat) (rest : List Byte) :
    ∀ (t : HashTable (List Byte) Int) (n : Nat) (w : List Byte),
      compressLoop hasher rest t n w =
        (compressSteps hasher rest t n w).flatMap (EmitStep.written hasher) := by
  induction rest with
  | nil =>
    intro t n w
    simp [compressLoop, compressSteps, EmitStep.written]
  | cons c rest ih =>
    intro t n w
    by_cases hc : c = 0
    · simp [compressLoop, compressSteps, hc, EmitStep.written]
    · by_cases hfound : (t.get hasher (w ++ [c])).isSome = true
      · simp only [compressLoop, compressSteps, hc, hfound, ne_eq, not_false_eq_true,
          and_self, if_true]
        exact ih _ _ _
      · simp only [compressLoop, compressSteps, hc, hfound, ne_eq, not_false_eq_true,
          and_true, true_and, if_true, if_false, Bool.false_eq_true, List.flatMap_cons,
          EmitStep.written]
        rw [ih]

theorem compress_eq_steps (hasher : List Byte → Nat) (text : List Byte) :
    compress hasher text = (emitSteps hasher text).flatMap (EmitStep.written hasher) := by
  cases text with
  | nil => simp [compress, emitSteps]
  | cons first rest =>
    simp only [compress, emitSteps]
    exact compressLoop_eq_steps hasher rest _ _ _

theorem tracked_add (hasher : List Byte → Nat) (t : HashTable (List Byte) Int)
    (next_code : Nat) (pairs : List (List Byte × Int)) (x : List Byte)
    (ht : Tracked hasher t next_code pairs) (hroom : next_code < 4096)
    (hx : lookupCode (pairs.map Prod.fst) x = none) :
    Tracked hasher (t.add hasher x (next_code : Int)) (next_code + 1)
      (pairs ++ [(x, (next_code : Int))]) := by
  have hinv := ht.dict
  have hfree := hinv.free_ge
  have hnext := ht.next_eq
  have hlen : (pairs.map Prod.fst).length = pairs.length := List.length_map _ _
  refine ⟨⟨HashTable.add_wf _ _ hinv.wf _ _,
      HashTable.add_reachable _ _ hinv.wf hinv.reachable _ _, ?_, ?_⟩, ?_, ?_, ?_⟩
  · have := HashTable.add_free hasher t hinv.wf x (next_code : Int)
    simp only [List.map_append, List.length_append, List.length_map, List.length_singleton,
      List.map_cons, List.map_nil]
    rw [hlen] at hfree
    omega
  · intro w2
    rw [HashTable.get_add hasher t hinv.wf hinv.reachable _ _
      (HashTable.room_of_free _ hinv.wf (by omega) _)]
    simp only [List.map_append, List.map_cons, List.map_nil]
    rw [lookupCode_append _ _ _ hx, hinv.get_eq, hlen, hnext]
  · intro j p hp
    by_cases hj : j < pairs.length
    · rw [List.getElem?_append_left hj] at hp
      exact ht.codes j p hp
    · rw [List.getElem?_append_right (by omega)] at hp
      have hj0 : j - pairs.length = 0 := by
        by_contra hne
        rw [List.getElem?_eq_none (by simp; omega)] at hp
        cases hp
      rw [hj0] at hp
      simp only [List.getElem?_cons_zero, Option.some.injEq] at hp
      rw [← hp]
      simp only
      have : j = pairs.length := by omega
      rw [hnext, this]
  · simp only [List.length_append, List.length_singleton]; omega
  · simp only [List.length_append, List.length_singleton]; omega

/-- Every recorded pass finds the table holding the seeds and what the passes
before it inserted, `next_code` counting these insertions, and the current
string in the table. -/
theorem compressSteps_tracked (hasher : List Byte → Nat) (rest : List Byte) :
    ∀ (t : HashTable (List Byte) Int) (n : Nat) (w : List Byte)
      (pairs : List (List Byte × Int)),
      Tracked hasher t n pairs → (lookupCode (pairs.map Prod.fst) w).isSome = true →
      ∀ i s, (compressSteps hasher rest t n w)[i]? = some s →
        Tracked hasher s.dictionary s.next_code
          (pairs ++ ((compressSteps hasher rest t n w).take i).filterMap EmitStep.inserted) ∧
        (lookupCode ((pairs ++ ((compressSteps hasher rest t n w).take i).filterMap
          EmitStep.inserted).map Prod.fst) s.current_prefix).isSome = true := by
  induction rest with
  | nil =>
    intro t n w pairs ht hw i s hs
    simp only [compressSteps] at hs ⊢
    cases i with
    | zero =>
      simp only [List.getElem?_cons_zero, Option.some.injEq] at hs
      subst hs
      simpa using ⟨ht, hw⟩
    | succ i => simp at hs
  | cons c rest ih =>
    intro t n w pairs ht hw i s hs
    have hget := ht.dict.get_eq
    by_cases hc : c = 0
    · simp only [compressSteps, hc, ne_eq, not_true_eq_false, and_false, if_false] at hs ⊢
      cases i with
      | zero =>
        simp only [List.getElem?_cons_zero, Option.some.injEq] at hs
        subst hs
        simpa using ⟨ht, hw⟩
      | succ i => simp at hs
    · by_cases hfound : (lookupCode (pairs.map Prod.fst) (w ++ [c])).isSome = true
      · have heq : compressSteps hasher (c :: rest) t n w =
            compressSteps hasher rest t n (w ++ [c]) := by
          simp only [compressSteps, hc, hget, hfound, ne_eq, not_false_eq_true, and_self,
            if_true]
        rw [heq] at hs ⊢
        exact ih t n (w ++ [c]) pairs ht hfound i s hs
      · have hnone : lookupCode (pairs.map Prod.fst) (w ++ [c]) = none := by
          cases h : lookupCode (pairs.map Prod.fst) (w ++ [c]) with
          | none => rfl
          | some x => simp [h] at hfound
        by_cases hroom : n < 4096
        · have heq : compressSteps hasher (c :: rest) t n w =
              { dictionary := t, next_code := n, current_prefix := w, current_char := c } ::
                compressSteps hasher rest (t.add hasher (w ++ [c]) (n : Int)) (n + 1) [c] := by
            simp only [compressSteps, hc, hget, hfound, hroom, ne_eq, not_false_eq_true,
              and_true, and_self, if_true, if_false, Bool.false_eq_true]
          rw [heq] at hs ⊢
          cases i with
          | zero =>
            simp only [List.getElem?_cons_zero, Option.some.injEq] at hs
            subst hs
            simpa using ⟨ht, hw⟩
          | succ i =>
            rw [List.getElem?_cons_succ] at hs
            have ht2 := tracked_add hasher t n pairs (w ++ [c]) ht hroom hnone
            have key := ih _ _ [c] _ ht2 (by rw [lookupCode_single]; rfl) i s hs
            have hins : EmitStep.inserted
                { dictionary := t, next_code := n, current_prefix := w, current_char := c } =
                some (w ++ [c], (n : Int)) := by
              simp [EmitStep.inserted, hc, hroom]
            simp only [List.take_succ_cons, List.filterMap_cons, hins]
            simpa [List.append_assoc] using key
        · have heq : compressSteps hasher (c :: rest) t n w =
              { dictionary := t, next_code := n, current_prefix := w, current_char := c } ::
                compressSteps hasher rest t n [c] := by
            simp only [compressSteps, hc, hget, hfound, hroom, ne_eq, not_false_eq_true,
              and_true, and_false, if_true, if_false, Bool.false_eq_true]
          rw [heq] at hs ⊢
          cases i with
          | zero =>
            simp only [List.getElem?_cons_zero, Option.some.injEq] at hs
            subst hs
            simpa using ⟨ht, hw⟩
          | succ i =>
            rw [List.getElem?_cons_succ] at hs
            have key := ih _ _ [c] _ ht (by rw [lookupCode_single]; rfl) i s hs
            have hins : EmitStep.inserted
                { dictionary := t, next_code := n, current_prefix := w, current_char := c } =
                none := by
              simp [EmitStep.inserted, hroom]
            simp only [List.take_succ_cons, List.filterMap_cons, hins]
            exact key

theorem seedDictionary_tracked (hasher : List Byte → Nat) :
    Tracked hasher (seedDictionary hasher) 256 [] :=
  ⟨seedDictionary_inv hasher, by intro j p hp; simp at hp, rfl, by simp⟩

/-! ## Facts about the decoder -/

theorem seedFold_length (n : Nat) (l : List (List Byte)) :
    ((List.range n).foldl (fun d i => d.set i [Fin.ofNat i]) l).length = l.length := by
  induction n with
  | zero => simp
  | succ n ih => rw [List.range_succ, List.foldl_append]; simp [ih]

theorem seedFold_getElem? (m n i : Nat) :
    ((List.range n).foldl (fun d i => d.set i [Fin.ofNat i])
      (List.replicate m ([] : List Byte)))[i]? =
      if i < n ∧ i < m then some [Fin.ofNat i]
      else if i < m then some [] else none := by
  induction n with
  | zero => simp [List.getElem?_replicate]
  | succ n ih =>
    rw [List.range_succ, List.foldl_append]
    simp only [List.foldl_cons, List.foldl_nil, List.getElem?_set, seedFold_length,
      List.length_replicate, ih]
    by_cases h1 : n = i
    · subst h1; by_cases h2 : n < m <;> simp [h2]
    · have h3 : i < n + 1 ↔ i < n := by omega
      simp [h1, h3]

theorem seedTable_length : seedTable.length = 4096 := by
  unfold seedTable
  rw [seedFold_length, List.length_replicate]

theorem seedTable_getElem? (i : Nat) :
    seedTable[i]? = if i < 256 then some [Fin.ofNat i]
      else if i < 4096 then some [] else none := by
  unfold seedTable
  rw [seedFold_getElem?]
  by_cases h : i < 256
  · have h2 : i < 4096 := by omega
    rw [if_pos ⟨h, h2⟩, if_pos h]
  · have h2 : ¬ (i < 256 ∧ i < 4096) := fun hh => h hh.1
    rw [if_neg h2, if_neg h]

theorem seedTable_getD (i : Nat) :
    seedTable.getD i [] = if i < 256 then [Fin.ofNat i] else [] := by
  rw [List.getD_eq_getElem?_getD, seedTable_getElem?]
  by_cases h : i < 256
  · rw [if_pos h, if_pos h]; rfl
  · rw [if_neg h, if_neg h]
    by_cases h2 : i < 4096
    · rw [if_pos h2]; rfl
    · rw [if_neg h2]; rfl

theorem initialState_inv (first : Int) (h : 0 ≤ first ∧ first ≤ 255) :
    DecodeInv (initialState first) := by
  have hlt : first.toNat < 256 := by omega
  have hd : (initialState first).dictionary = seedTable := by simp only [initialState]
  have hn : (initialState first).next_available_code = 256 := by simp only [initialState]
  have hp : (initialState first).previous_entry = seedTable.getD first.toNat [] := by
    simp only [initialState]
  constructor
  · rw [hd]; exact seedTable_length
  · rw [hn]
  · rw [hn]; omega
  · intro i hi
    rw [hd, seedTable_getD, if_pos hi]
  · intro i hi
    rw [hn] at hi
    rw [hd, seedTable_getD, if_pos hi]
    exact List.cons_ne_nil _ _
  · intro i hi
    rw [hn] at hi
    have hi2 : ¬ i < 256 := Nat.not_lt.mpr hi
    rw [hd, seedTable_getD, if_neg hi2]
  · rw [hp, seedTable_getD, if_pos hlt]
    exact List.cons_ne_nil _ _

theorem getD_set (l : List (List Byte)) (i j : Nat) (a : List Byte) (hi : i < l.length) :
    (l.set i a).getD j [] = if i = j then a else l.getD j [] := by
  simp only [List.getD_eq_getElem?_getD, List.getElem?_set]
  by_cases h : i = j
  · subst h; simp [hi]
  · simp [h]

theorem advance_next (st : DecodeState) (e : List Byte)
    (hle : st.next_available_code ≤ 4096) :
    (advance st e).next_available_code = min (st.next_available_code + 1) 4096 := by
  unfold advance
  split
  · simp only; omega
  · simp only; omega

theorem advance_previous (st : DecodeState) (e : List Byte) :
    (advance st e).previous_entry = e := by
  unfold advance
  split <;> rfl

theorem advance_inv (st : DecodeState) (e : List Byte) (hinv : DecodeInv st) (he : e ≠ []) :
    DecodeInv (advance st e) := by
  unfold advance
  split
  · rename_i hlt
    have hlen : st.next_available_code < st.dictionary.length := by
      rw [hinv.length_eq]; exact hlt
    refine ⟨by simp [hinv.length_eq], ?_, ?_, ?_, ?_, ?_, he⟩
    · have := hinv.next_ge; simp only; omega
    · simp only; omega
    · intro i hi
      have hne : st.next_available_code ≠ i := by have := hinv.next_ge; omega
      simp only [getD_set _ _ _ _ hlen, hne, if_false]
      exact hinv.seeds i hi
    · intro i hi
      simp only at hi
      simp only [getD_set _ _ _ _ hlen]
      by_cases h : st.next_available_code = i
      · simp [h]
      · simp only [h, if_false]
        exact hinv.filled i (by omega)
    · intro i hi
      simp only at hi
      have hne : st.next_available_code ≠ i := by omega
      simp only [getD_set _ _ _ _ hlen, hne, if_false]
      exact hinv.unfilled i (by omega)
  · exact ⟨hinv.length_eq, hinv.next_ge, hinv.next_le, hinv.seeds, hinv.filled,
      hinv.unfilled, he⟩

/-- A code is accepted exactly when it lies in `0 .. next_available_code`. -/
theorem currentEntry_eq_none_iff (st : DecodeState) (c : Int) (hinv : DecodeInv st) :
    currentEntry st c = none ↔ ¬ (0 ≤ c ∧ c ≤ (st.next_available_code : Int)) := by
  unfold currentEntry
  have hlen := hinv.length_eq
  have hle := hinv.next_le
  by_cases h1 : 0 ≤ c ∧ c < (st.next_available_code : Int)
  · have hfill := hinv.filled c.toNat (by omega)
    have h2 : c < (st.dictionary.length : Int) := by rw [hlen]; omega
    rw [if_pos ⟨h1.1, h1.2, h2, hfill⟩]
    constructor
    · intro h; cases h
    · intro h; exact absurd ⟨h1.1, by omega⟩ h
  · have h3 : ¬ (0 ≤ c ∧ c < (st.next_available_code : Int) ∧
        c < (st.dictionary.length : Int) ∧ st.dictionary.getD c.toNat [] ≠ []) := by
      intro h; exact h1 ⟨h.1, h.2.1⟩
    rw [if_neg h3]
    by_cases h4 : c = (st.next_available_code : Int)
    · simp only [h4, if_true]
      constructor
      · intro h; cases h
      · intro h; exact absurd ⟨by omega, by omega⟩ h
    · simp only [h4, if_false, true_iff]
      intro h; apply h1; omega

theorem currentEntry_ne_nil (st : DecodeState) (c : Int) (e : List Byte)
    (h : currentEntry st c = some e) : e ≠ [] := by
  unfold currentEntry at h
  split at h
  · rename_i hc
    cases h
    exact hc.2.2.2
  · split at h
    · cases h; simp
    · cases h

/-- A code below 256 is accepted and stands for its one-byte string. -/
theorem currentEntry_seed (st : DecodeState) (c : Int) (hinv : DecodeInv st)
    (hc : 0 ≤ c ∧ c ≤ 255) : currentEntry st c = some [Fin.ofNat c.toNat] := by
  unfold currentEntry
  have hlen := hinv.length_eq
  have hge := hinv.next_ge
  have hs := hinv.seeds c.toNat (by omega)
  have h2 : c < (st.dictionary.length : Int) := by rw [hlen]; omega
  have h3 : c < (st.next_available_code : Int) := by omega
  have h4 : st.dictionary.getD c.toNat [] ≠ [] := by rw [hs]; exact List.cons_ne_nil _ _
  rw [if_pos ⟨hc.1, h3, h2, h4⟩, hs]

theorem runCodes_inv (cs : List Int) (st st1 : DecodeState) (hinv : DecodeInv st)
    (h : runCodes cs st = some st1) :
    DecodeInv st1 ∧ st1.next_available_code = min (st.next_available_code + cs.length) 4096 := by
  induction cs generalizing st with
  | nil =>
    simp only [runCodes, Option.some.injEq] at h
    subst h
    refine ⟨hinv, ?_⟩
    have := hinv.next_le
    simp; omega
  | cons c cs ih =>
    simp only [runCodes] at h
    split at h
    · cases h
    · rename_i e he
      have hinv1 := advance_inv st e hinv (currentEntry_ne_nil st c e he)
      obtain ⟨h1, h2⟩ := ih _ hinv1 h
      refine ⟨h1, ?_⟩
      rw [h2, advance_next _ _ hinv.next_le]
      simp only [List.length_cons]
      omega

theorem runCodes_append (cs ds : List Int) (st : DecodeState) :
    runCodes (cs ++ ds) st = (runCodes cs st).bind (runCodes ds) := by
  induction cs generalizing st with
  | nil => simp [runCodes]
  | cons c cs ih =>
    simp only [List.cons_append, runCodes]
    split
    · simp
    · exact ih _

theorem decompressLoop_error_none_iff (cs : List Int) (st : DecodeState) :
    (decompressLoop cs st).error = none ↔ (runCodes cs st).isSome = true := by
  induction cs generalizing st with
  | nil => simp [decompressLoop, runCodes]
  | cons c cs ih =>
    simp only [decompressLoop, runCodes]
    split
    · simp
    · exact ih _

theorem decompressLoop_not_invalidStart (cs : List Int) (st : DecodeState) (c : Int) :
    (decompressLoop cs st).error ≠ some (DecodeError.InvalidStartCode c) := by
  induction cs generalizing st with
  | nil => simp [decompressLoop]
  | cons a cs ih =>
    simp only [decompressLoop]
    split
    · simp
    · exact ih _

/-- Codes below 256 only: the loop accepts them all and writes their bytes. -/
theorem decompressLoop_seed_codes (cs : List Int) (st : DecodeState) (hinv : DecodeInv st)
    (hcs : ∀ c ∈ cs, 0 ≤ c ∧ c ≤ 255) :
    decompressLoop cs st =
      { output := cs.map (fun c => (Fin.ofNat c.toNat : Byte)), error := none } := by
  induction cs generalizing st with
  | nil => simp [decompressLoop]
  | cons c cs ih =>
    have hc := hcs c (List.mem_cons_self _ _)
    have he := currentEntry_seed st c hinv hc
    simp only [decompressLoop, he]
    rw [ih _ (advance_inv st _ hinv (List.cons_ne_nil _ _))
      (fun a ha => hcs a (List.mem_cons_of_mem _ ha))]
    simp

theorem runCodes_seed_codes (cs : List Int) (st : DecodeState) (hinv : DecodeInv st)
    (hcs : ∀ c ∈ cs, 0 ≤ c ∧ c ≤ 255) : ∃ st1, runCodes cs st = some st1 := by
  have h := (decompressLoop_error_none_iff cs st).mp
    (by rw [decompressLoop_seed_codes cs st hinv hcs])
  exact Option.isSome_iff_exists.mp h

/-- The loop ends on `InvalidCode c` exactly when it reaches, with every earlier
code accepted, a code `c` that is neither below `next_available_code` (and
non-negative) nor equal to it. -/
theorem decompressLoop_invalidCode_iff (cs : List Int) (st : DecodeState)
    (hinv : DecodeInv st) (c : Int) :
    (decompressLoop cs st).error = some (DecodeError.InvalidCode c) ↔
      ∃ k st1, k < cs.length ∧ cs.getD k 0 = c ∧ runCodes (cs.take k) st = some st1 ∧
        ¬ (0 ≤ c ∧ c < (st1.next_available_code : Int)) ∧
        c ≠ (st1.next_available_code : Int) := by
  induction cs generalizing st with
  | nil => simp [decompressLoop]
  | cons a cs ih =>
    cases he : currentEntry st a with
    | none =>
      have hbad := (currentEntry_eq_none_iff st a hinv).mp he
      simp only [decompressLoop, he]
      constructor
      · intro h
        simp only [Option.some.injEq, DecodeError.InvalidCode.injEq] at h
        subst h
        refine ⟨0, st, by simp, by simp, by simp [runCodes], ?_, ?_⟩
        · intro h; exact hbad ⟨h.1, by omega⟩
        · intro h; apply hbad; have := Int.ofNat_nonneg st.next_available_code; omega
      · rintro ⟨k, st1, _, hk2, hk3, _, _⟩
        cases k with
        | zero => simp at hk2; simp [hk2]
        | succ k => simp [runCodes, he] at hk3
    | some e =>
      have hgood : 0 ≤ a ∧ a ≤ (st.next_available_code : Int) := by
        by_contra hcon
        have := (currentEntry_eq_none_iff st a hinv).mpr hcon
        rw [he] at this; cases this
      simp only [decompressLoop, he]
      rw [ih _ (advance_inv st e hinv (currentEntry_ne_nil st a e he))]
      constructor
      · rintro ⟨k, st1, hk1, hk2, hk3, hk4, hk5⟩
        exact ⟨k + 1, st1, by simpa using hk1, by simpa using hk2,
          by simpa [runCodes, he] using hk3, hk4, hk5⟩
      · rintro ⟨k, st1, hk1, hk2, hk3, hk4, hk5⟩
        cases k with
        | zero =>
          simp only [List.take_zero, runCodes, Option.some.injEq] at hk3
          subst hk3
          simp only [List.getD_cons_zero] at hk2
          subst hk2
          exfalso
          by_cases h : a = (st.next_available_code : Int)
          · exact hk5 h
          · exact hk4 ⟨hgood.1, by omega⟩
        | succ k =>
          exact ⟨k, st1, by simpa using hk1, by simpa using hk2,
            by simpa [runCodes, he] using hk3, hk4, hk5⟩

/-- When the loop ends on `InvalidCode c`, the code `c` stands at an index `k`,
the loop over the first `k` codes ends without error having written the same
bytes, and the loop over the first `k + 1` codes ends on the same error. -/
theorem decompressLoop_invalidCode_output (cs : List Int) (st : DecodeState) (c : Int)
    (h : (decompressLoop cs st).error = some (DecodeError.InvalidCode c)) :
    ∃ k, k < cs.length ∧ cs.getD k 0 = c ∧
      decompressLoop (cs.take k) st =
        { output := (decompressLoop cs st).output, error := none } ∧
      decompressLoop (cs.take (k + 1)) st =
        { output := (decompressLoop cs st).output,
          error := some (DecodeError.InvalidCode c) } := by
  induction cs generalizing st with
  | nil => simp [decompressLoop] at h
  | cons a cs ih =>
    cases he : currentEntry st a with
    | none =>
      simp only [decompressLoop, he, Option.some.injEq, DecodeError.InvalidCode.injEq] at h
      subst h
      exact ⟨0, by simp, by simp, by simp [decompressLoop, he],
        by simp [decompressLoop, he]⟩
    | some e =>
      simp only [decompressLoop, he] at h
      obtain ⟨k, hk1, hk2, hk3, hk4⟩ := ih _ h
      refine ⟨k + 1, by simpa using hk1, by simpa using hk2, ?_, ?_⟩
      · simp [decompressLoop, he, hk3]
      · simp [decompressLoop, he, hk4]

theorem byte_val_ofNat (c : Int) (hc : 0 ≤ c ∧ c ≤ 255) :
    (((Fin.ofNat c.toNat : Byte).val : Nat) : Int) = c := by
  have h : c.toNat % 256 = c.toNat := Nat.mod_eq_of_lt (by omega)
  simp only [Fin.ofNat, h]
  omega

theorem initialState_previous (first : Int) (h : 0 ≤ first ∧ first ≤ 255) :
    (initialState first).previous_entry = [Fin.ofNat first.toNat] := by
  have hlt : first.toNat < 256 := by omega
  simp only [initialState]
  rw [seedTable_getD, if_pos hlt]

theorem decompress_cons_valid (first : Int) (rest : List Int) (h : 0 ≤ first ∧ first ≤ 255) :
    decompress (first :: rest) =
      { output := (Fin.ofNat first.toNat : Byte) ::
          (decompressLoop rest (initialState first)).output,
        error := (decompressLoop rest (initialState first)).error } := by
  have hn : ¬ (first < 0 ∨ first > 255) := by omega
  simp only [decompress, hn, if_false, initialState_previous first h]
  rfl

theorem decompress_cons_invalid (first : Int) (rest : List Int) (h : first < 0 ∨ 255 < first) :
    decompress (first :: rest) =
      { output := [], error := some (DecodeError.InvalidStartCode first) } := by
  have hn : first < 0 ∨ first > 255 := h
  simp only [decompress, hn, if_true]

/-- After 3840 accepted codes `next_available_code` is 4096, and the code 4096 is
then accepted by the branch of line 169. -/
theorem decompress_ceiling_code (n : Nat) (hn : 3840 ≤ n) :
    (decompress (65 :: (List.replicate n 65 ++ [4096]))).error = none := by
  rw [decompress_cons_valid 65 _ (by omega)]
  simp only
  rw [decompressLoop_error_none_iff, runCodes_append]
  have hinv := initialState_inv 65 (by omega)
  have hall : ∀ c ∈ List.replicate n (65 : Int), 0 ≤ c ∧ c ≤ 255 := by
    intro c hc
    have := List.eq_of_mem_replicate hc
    omega
  obtain ⟨st1, h1⟩ := runCodes_seed_codes _ _ hinv hall
  obtain ⟨hinv1, hnext⟩ := runCodes_inv _ _ _ hinv h1
  have hnext1 : st1.next_available_code = 4096 := by
    rw [hnext, List.length_replicate]
    have : (initialState 65).next_available_code = 256 := by simp only [initialState]
    omega
  rw [h1]
  simp only [Option.bind_some, runCodes]
  cases he : currentEntry st1 4096 with
  | none =>
    have := (currentEntry_eq_none_iff st1 4096 hinv1).mp he
    rw [hnext1] at this
    omega
  | some e => simp [he]

/-- The run on `[65, 66, 9999, 67]` stops at the code 9999. -/
theorem decompress_example_error :
    (decompress [65, 66, 9999, 67]).error = some (DecodeError.InvalidCode 9999) := by
  have hinv := initialState_inv 65 (by omega)
  rw [decompress_cons_valid 65 _ (by omega)]
  have h1 := currentEntry_seed (initialState 65) 66 hinv (by omega)
  have hinv1 := advance_inv _ _ hinv (currentEntry_ne_nil _ _ _ h1)
  have hn1 := advance_next (initialState 65) [Fin.ofNat (66 : Int).toNat] hinv.next_le
  have h2 : currentEntry (advance (initialState 65) [Fin.ofNat (66 : Int).toNat]) 9999 = none := by
    rw [currentEntry_eq_none_iff _ _ hinv1, hn1]
    simp only [initialState]
    omega
  simp only [decompressLoop, h1, h2]

/-! ## The decoder follows the encoder -/

theorem firstByte_append (w : List Byte) (x : List Byte) (hw : w ≠ []) :
    firstByte (w ++ x) = firstByte w := by
  cases w with
  | nil => exact absurd rfl hw
  | cons a t => rfl

theorem byte_ofNat_val (b : Byte) : (Fin.ofNat ((b.val : Nat) : Int).toNat : Byte) = b := by
  apply Fin.ext
  simp only [Int.toNat_ofNat, Fin.ofNat]
  exact Nat.mod_eq_of_lt b.isLt

/-- The branch of line 169: the code equal to `next_available_code`. -/
theorem currentEntry_next (st : DecodeState) :
    currentEntry st (st.next_available_code : Int) =
      some (st.previous_entry ++ [firstByte st.previous_entry]) := by
  unfold currentEntry
  have h : ¬ (0 ≤ (st.next_available_code : Int) ∧
      (st.next_available_code : Int) < (st.next_available_code : Int) ∧
      (st.next_available_code : Int) < (st.dictionary.length : Int) ∧
      st.dictionary.getD (st.next_available_code : Int).toNat [] ≠ []) := by
    intro hh; omega
  rw [if_neg h, if_pos rfl]

/-- The branch of line 167: a code below `next_available_code`. -/
theorem currentEntry_below (st : DecodeState) (hinv : DecodeInv st) (i : Nat)
    (hi : i < st.next_available_code) :
    currentEntry st (i : Int) = some (st.dictionary.getD i []) := by
  unfold currentEntry
  have hlen := hinv.length_eq
  have hle := hinv.next_le
  have hfill := hinv.filled i hi
  have h : 0 ≤ (i : Int) ∧ (i : Int) < (st.next_available_code : Int) ∧
      (i : Int) < (st.dictionary.length : Int) ∧
      st.dictionary.getD (i : Int).toNat [] ≠ [] := by
    refine ⟨by omega, by omega, by omega, ?_⟩
    rw [Int.toNat_ofNat]; exact hfill
  rw [if_pos h, Int.toNat_ofNat]

/-- The decoder in step with the encoder turns the code of `w` back into `w`. -/
theorem currentEntry_of_lookup (entries : List (List Byte)) (w : List Byte)
    (st : DecodeState) (code : Int) (hs : Sync entries w st)
    (h : lookupCode entries w = some code) : currentEntry st code = some w := by
  rcases lookupCode_eq_some entries w code h with ⟨b, hb1, hb2⟩ | ⟨j, hj1, hj2, hj3⟩
  · have hb := b.isLt
    rw [currentEntry_seed st code hs.inv (by omega), hb2, byte_ofNat_val, hb1]
  · rw [hj3]
    by_cases hlt : 256 + j < st.next_available_code
    · rw [currentEntry_below st hs.inv _ hlt]
      have := hs.agree j hlt
      rw [hj2] at this
      simp only [Option.some.injEq] at this
      rw [← this]
    · rcases hs.ahead with ⟨h1, h2, h3⟩ | ⟨h1, h2⟩
      · have hge := hs.inv.next_ge
        have hj : 256 + j = st.next_available_code := by omega
        have hj' : st.next_available_code - 256 = j := by omega
        rw [hj', hj2] at h3
        simp only [Option.some.injEq] at h3
        rw [hj, currentEntry_next]
        have hfb : firstByte w = firstByte st.previous_entry := by
          rw [h3]
          exact firstByte_append _ _ hs.inv.previous_ne
        rw [← hfb, ← h3]
      · omega

theorem sync_extend (entries : List (List Byte)) (w : List Byte) (c : Byte)
    (st : DecodeState) (hs : Sync entries w st) (hw : w ≠ []) :
    Sync entries (w ++ [c]) st := by
  refine ⟨hs.inv, hs.agree, ?_⟩
  rw [firstByte_append w [c] hw]
  exact hs.ahead

theorem sync_advance (entries : List (List Byte)) (w : List Byte) (c : Byte)
    (st : DecodeState) (hs : Sync entries w st) (hw : w ≠ []) :
    Sync (growEntries entries w c) [c] (advance st w) := by
  have hinv := hs.inv
  have hge := hinv.next_ge
  have hinv2 := advance_inv st w hinv hw
  rcases hs.ahead with ⟨h1, h2, h3⟩ | ⟨h1, h2⟩
  · have hlen : st.next_available_code < st.dictionary.length := by
      rw [hinv.length_eq]; exact h1
    have hadv : advance st w =
        { dictionary := st.dictionary.set st.next_available_code
            (st.previous_entry ++ [firstByte w]),
          previous_entry := w,
          next_available_code := st.next_available_code + 1 } := by
      simp only [advance, h1, if_true]
    have hgrow : ∀ j, j < entries.length →
        (growEntries entries w c)[j]? = entries[j]? := by
      intro j hj
      unfold growEntries
      split
      · rw [List.getElem?_append_left hj]
      · rfl
    refine ⟨hinv2, ?_, ?_⟩
    · intro j hj
      rw [hadv] at hj ⊢
      simp only at hj ⊢
      rw [getD_set _ _ _ _ hlen, hgrow j (by omega)]
      by_cases hjn : st.next_available_code = 256 + j
      · rw [if_pos hjn]
        have : st.next_available_code - 256 = j := by omega
        rw [← this, h3]
      · rw [if_neg hjn]
        exact hs.agree j (by omega)
    · rw [hadv]
      simp only
      by_cases hroom : 256 + entries.length < 4096
      · left
        refine ⟨by omega, ?_, ?_⟩
        · simp only [growEntries, hroom, if_true, List.length_append, List.length_singleton]
          omega
        · have hidx : st.next_available_code + 1 - 256 = entries.length := by omega
          simp only [growEntries, hroom, if_true, hidx]
          rw [List.getElem?_append_right (Nat.le_refl _)]
          simp [firstByte]
      · right
        refine ⟨by omega, ?_⟩
        simp only [growEntries, hroom, if_false]
        omega
  · have hadv : advance st w = { st with previous_entry := w } := by
      have : ¬ st.next_available_code < 4096 := by omega
      simp only [advance, this, if_false]
    have hgrow : growEntries entries w c = entries := by
      have : ¬ 256 + entries.length < 4096 := by omega
      simp only [growEntries, this, if_false]
    refine ⟨hinv2, ?_, ?_⟩
    · rw [hadv, hgrow]
      exact hs.agree
    · right
      rw [hadv, hgrow]
      exact ⟨h1, h2⟩

/-- The loop of `decompress`, in step with the encoder, turns the codes of the
loop of `compress` back into the string being built followed by the bytes the
encoder still reads. -/
theorem decompressLoop_compressLoopAbs (rest : List Byte) :
    ∀ (entries : List (List Byte)) (w : List Byte) (st : DecodeState),
      Sync entries w st → w ≠ [] → (lookupCode entries w).isSome = true →
      decompressLoop (compressLoopAbs rest entries w) st =
        { output := w ++ rest.takeWhile (fun c => c ≠ 0), error := none } := by
  induction rest with
  | nil =>
    intro entries w st hs hw hsome
    obtain ⟨code, hcode⟩ := Option.isSome_iff_exists.mp hsome
    simp [compressLoopAbs, hcode, decompressLoop, currentEntry_of_lookup _ _ _ _ hs hcode]
  | cons c rest ih =>
    intro entries w st hs hw hsome
    obtain ⟨code, hcode⟩ := Option.isSome_iff_exists.mp hsome
    have hdec := currentEntry_of_lookup _ _ _ _ hs hcode
    by_cases hc : c = 0
    · simp [compressLoopAbs, hc, hcode, decompressLoop, hdec]
    · by_cases hfound : (lookupCode entries (w ++ [c])).isSome = true
      · have key := ih entries (w ++ [c]) st (sync_extend _ _ c _ hs hw) (by simp) hfound
        simp [compressLoopAbs, hc, hfound, key]
      · have key := ih (growEntries entries w c) [c] (advance st w)
          (sync_advance _ _ c _ hs hw) (by simp) (by rw [lookupCode_single]; rfl)
        simp [compressLoopAbs, hc, hfound, hcode, decompressLoop, hdec, key]

/-- Decoding what `compress` wrote gives back the bytes that `compress` read,
without error, whatever the hash function. -/
theorem decompress_compress (hasher : List Byte → Nat) (text : List Byte) :
    decompress (compress hasher text) = { output := readPart text, error := none } := by
  cases text with
  | nil => simp only [compress, decompress, readPart]
  | cons first rest =>
    rw [compress_eq_abs]
    have hb := first.isLt
    have hfirst : 0 ≤ ((first.val : Nat) : Int) ∧ ((first.val : Nat) : Int) ≤ 255 := by omega
    have hdec1 : decompress [((first.val : Nat) : Int)] =
        { output := [first], error := none } := by
      rw [decompress_cons_valid _ _ hfirst, byte_ofNat_val]
      simp [decompressLoop]
    cases rest with
    | nil => simpa [compressLoopAbs, lookupCode_single, readPart] using hdec1
    | cons c rest =>
      by_cases hc : c = 0
      · simpa [compressLoopAbs, lookupCode_single, readPart, hc] using hdec1
      · have hnone : (lookupCode [] [first, c]).isSome = false := by
          simp [lookupCode, entryIndex]
        have hsync : Sync (growEntries [] [first] c) [c]
            (initialState ((first.val : Nat) : Int)) := by
          have hinv := initialState_inv _ hfirst
          have hn : (initialState ((first.val : Nat) : Int)).next_available_code = 256 := by
            simp only [initialState]
          refine ⟨hinv, ?_, ?_⟩
          · intro j hj; omega
          · left
            rw [hn, initialState_previous _ hfirst, byte_ofNat_val]
            refine ⟨by omega, ?_, ?_⟩
            · simp [growEntries]
            · simp [growEntries, firstByte]
        have key := decompressLoop_compressLoopAbs rest _ [c] _ hsync (by simp)
          (by rw [lookupCode_single]; rfl)
        simp only [compressLoopAbs, hc, ne_eq, not_false_eq_true, if_true,
          List.singleton_append, hnone, Bool.false_eq_true, if_false, lookupCode_single,
          Option.toList_some, List.cons_append, List.nil_append]
        rw [decompress_cons_valid _ _ hfirst, byte_ofNat_val, key]
        simp [readPart, hc]

theorem readPart_eq_self_iff (text : List Byte) :
    readPart text = text ↔ ∀ c ∈ text.tail, c ≠ 0 := by
  cases text with
  | nil => simp [readPart]
  | cons first rest =>
    simp only [readPart, List.cons.injEq, true_and, List.tail_cons,
      List.takeWhile_eq_self_iff]
    simp

/-- The codes of "banana", whatever the hash function. -/
theorem banana_run (hasher : List Byte → Nat) :
    compress hasher [98, 97, 110, 97, 110, 97] = [98, 97, 110, 257, 97] := by
  rw [compress_eq_abs]
  decide

/-- What the pass of index `i` of a run of `compress` writes: one code, below
`next_code`, which is the byte of the one-byte string it stands for or was
given to that string by an insertion of an earlier pass. -/
theorem emitSteps_written (hasher : List Byte → Nat) (text : List Byte) (i : Nat)
    (s : EmitStep) (hs : (emitSteps hasher text)[i]? = some s) :
    ∃ c : Int, s.written hasher = [c] ∧ 0 ≤ c ∧ c < (s.next_code : Int) ∧
      s.next_code ≤ 4096 ∧
      ((∃ b : Byte, s.current_prefix = [b] ∧ c = ((b.val : Nat) : Int)) ∨
        ∃ j s2, j < i ∧ (emitSteps hasher text)[j]? = some s2 ∧
          s2.inserted = some ( s.current_prefix, c)) := by
  cases text with
  | nil => simp [emitSteps] at hs
  | cons first rest =>
    simp only [emitSteps] at hs ⊢
    obtain ⟨ht, hsome⟩ := compressSteps_tracked hasher rest _ _ [first] []
      (seedDictionary_tracked hasher) (by rw [lookupCode_single]; rfl) i s hs
    simp only [List.nil_append] at ht hsome
    obtain ⟨c, hc⟩ := Option.isSome_iff_exists.mp hsome
    have hnext := ht.next_eq
    have hlen := ht.length_le
    refine ⟨c, ?_, ?_⟩
    · simp only [EmitStep.written, emitCode, ht.dict.get_eq, hc]
    · rcases lookupCode_eq_some _ _ _ hc with ⟨b, hb1, hb2⟩ | ⟨j, hj1, hj2, hj3⟩
      · have := b.isLt
        exact ⟨by omega, by omega, by omega, Or.inl ⟨b, hb1, hb2⟩⟩
      · rw [List.length_map] at hj1
        refine ⟨by omega, by omega, by omega, Or.inr ?_⟩
        rw [List.getElem?_map] at hj2
        simp only [Option.map_eq_some'] at hj2
        obtain ⟨p, hp1, hp2⟩ := hj2
        have hp3 := ht.codes j p hp1
        have hp : p = ( s.current_prefix, c) := by
          rw [← hp2, hj3, ← hp3]
        have hmem : p ∈ List.filterMap EmitStep.inserted
            ((compressSteps hasher rest (seedDictionary hasher) 256 [first]).take i) :=
          List.getElem?_mem hp1
        obtain ⟨s2, hs2, hs3⟩ := List.mem_filterMap.mp hmem
        obtain ⟨k, hk1, hk2⟩ := List.getElem_of_mem hs2
        rw [List.length_take] at hk1
        rw [List.getElem_take] at hk2
        refine ⟨k, s2, by omega, ?_, by rw [hs3, hp]⟩
        rw [List.getElem?_eq_getElem (by omega), hk2]

theorem flatMap_singleton_length {α β : Type} (f : α → List β) (l : List α)
    (h : ∀ a ∈ l, ∃ b, f a = [b]) : (l.flatMap f).length = l.length := by
  induction l with
  | nil => rfl
  | cons a l ih =>
    obtain ⟨b, hb⟩ := h a (List.mem_cons_self _ _)
    simp only [List.flatMap_cons, List.length_append, List.length_cons, hb, List.length_nil]
    rw [ih (fun x hx => h x (List.mem_cons_of_mem _ hx))]
    omega

/-- A run of `compress` writes one code per pass through line 112. -/
theorem emitSteps_length (hasher : List Byte → Nat) (text : List Byte) :
    (emitSteps hasher text).length = (compress hasher text).length := by
  rw [compress_eq_steps, flatMap_singleton_length]
  intro s hs
  obtain ⟨i, hi, his⟩ := List.getElem_of_mem hs
  obtain ⟨c, hc, _⟩ := emitSteps_written hasher text i s
    (by rw [List.getElem?_eq_getElem hi, his])
  exact ⟨c, hc⟩

/-- The run on "ABABABA" has four passes that write a code. -/
theorem emitSteps_example_length :
    (emitSteps (fun _ => 0) [65, 66, 65, 66, 65, 66, 65]).length = 4 := by
  rw [emitSteps_length, compress_eq_abs]
  decide

/-! ## The table is a finite map -/

namespace HashTable

variable {K V : Type}

theorem addAll_append [DecidableEq K] (hasher : K → Nat) (size : Int) (ops : List (K × V))
    (op : K × V) :
    addAll hasher size (ops ++ [op]) = (addAll hasher size ops).add hasher op.1 op.2 := by
  simp [addAll, List.foldl_append]

theorem lastInsert_append [DecidableEq K] (ops : List (K × V)) (op : K × V) (key : K) :
    lastInsert (ops ++ [op]) key = if op.1 = key then some op.2 else lastInsert ops key := by
  simp [lastInsert, List.foldl_append]

/-- A key has a most recent insert exactly when it was inserted. -/
theorem lastInsert_eq_none_iff [DecidableEq K] (ops : List (K × V)) (key : K) :
    lastInsert ops key = none ↔ key ∉ ops.map Prod.fst := by
  induction ops using List.reverseRecOn with
  | nil => simp [lastInsert]
  | append_singleton ops op ih =>
    rw [lastInsert_append]
    by_cases h : op.1 = key
    · simp [h]
    · have h2 : ¬ key = op.1 := fun hh => h hh.symm
      simp [h, h2, ih]

theorem addAll_wf [DecidableEq K] (hasher : K → Nat) (size : Int) (ops : List (K × V)) :
    (addAll hasher size ops).WF := by
  induction ops using List.reverseRecOn with
  | nil => exact new_wf size
  | append_singleton ops op ih => rw [addAll_append]; exact add_wf _ _ ih _ _

theorem addAll_reachable [DecidableEq K] (hasher : K → Nat) (size : Int)
    (ops : List (K × V)) : (addAll hasher size ops).Reachable hasher := by
  induction ops using List.reverseRecOn with
  | nil => exact new_reachable hasher size
  | append_singleton ops op ih =>
    rw [addAll_append]; exact add_reachable _ _ (addAll_wf _ _ _) ih _ _

theorem addAll_table_size [DecidableEq K] (hasher : K → Nat) (size : Int)
    (ops : List (K × V)) :
    (addAll hasher size ops).table_size = (new size : HashTable K V).table_size := by
  induction ops using List.reverseRecOn with
  | nil => rfl
  | append_singleton ops op ih => rw [addAll_append, add_table_size, ih]

/-- In a table whose keys are reachable, the walk for `key` stops at the slot
that holds `key`. -/
theorem stop_at_key (hasher : K → Nat) (t : HashTable K V)
    (hr : t.Reachable hasher) (i : Nat) (key : K) (v : V) (h : t.slot i = some (key, v))
    (j : Nat) (hnb : ¬ t.Busy key ((t.hash hasher key + j) % t.table_size))
    (hpath : ∀ e, e < j → t.Busy key ((t.hash hasher key + e) % t.table_size)) :
    (t.hash hasher key + j) % t.table_size = i := by
  obtain ⟨j2, hk1, hk2, hk3⟩ := hr i key v h
  have hnb2 : ¬ t.Busy key ((t.hash hasher key + j2) % t.table_size) := by
    rw [← hk2]
    exact (not_busy_iff t key i).mpr (Or.inr ⟨v, h⟩)
  rcases Nat.lt_trichotomy j j2 with hlt | heq | hgt
  · exact absurd (hk3 j hlt) hnb
  · rw [heq, ← hk2]
  · exact absurd (hpath j2 hgt) hnb2

/-- No two slots hold the same key. -/
theorem key_unique (hasher : K → Nat) (t : HashTable K V)
    (hr : t.Reachable hasher) (i j : Nat) (key : K) (v w : V)
    (hi : t.slot i = some (key, v)) (hj : t.slot j = some (key, w)) : i = j := by
  obtain ⟨e, _, he2, he3⟩ := hr i key v hi
  have hnb : ¬ t.Busy key ((t.hash hasher key + e) % t.table_size) := by
    rw [← he2]
    exact (not_busy_iff t key i).mpr (Or.inr ⟨v, hi⟩)
  rw [he2]
  exact stop_at_key hasher t hr j key w hj e hnb he3

theorem slot_eq_none_iff (t : HashTable K V) (p : Nat) (hp : p < t.table.length) :
    t.slot p = none ↔ t.table[p] = none := by
  unfold slot
  rw [List.getElem?_eq_getElem hp]
  cases t.table[p] <;> simp

/-- An `add` of a key that `get` finds uses no new slot; an `add` of a key that
`get` does not find, in a table with room for it, uses one. -/
theorem add_free_exact [DecidableEq K] (hasher : K → Nat) (t : HashTable K V) (hwf : t.WF)
    (hr : t.Reachable hasher) (key : K) (value : V)
    (hroom : ∃ i, i < t.table_size ∧ ¬ t.Busy key i) :
    (t.add hasher key value).free + (if (t.get hasher key).isSome then 0 else 1) =
      t.free := by
  rcases add_cases hasher t hwf key value with ⟨_, h2⟩ | ⟨j, hj1, hj2, hj3, hj4⟩
  · obtain ⟨i, hi1, hi2⟩ := hroom
    exact absurd (h2 i hi1) hi2
  · have hp : (t.hash hasher key + j) % t.table_size < t.table.length := by
      rw [hwf.length_eq]; exact Nat.mod_lt _ hwf.size_pos
    rw [hj2]
    unfold free
    simp only [List.countP_set _ _ _ _ hp, Option.isNone_some]
    cases hg : t.get hasher key with
    | some v0 =>
      obtain ⟨i, hi⟩ := slot_of_get hasher t hwf key v0 hg
      have hpi := stop_at_key hasher t hr i key v0 hi j hj3 hj4
      rw [← hpi] at hi
      have hne : t.table[(t.hash hasher key + j) % t.table_size] ≠ none := by
        intro hcon
        rw [(slot_eq_none_iff t _ hp).mpr hcon] at hi
        cases hi
      have hfalse : (t.table[(t.hash hasher key + j) % t.table_size]).isNone = false := by
        cases hx : t.table[(t.hash hasher key + j) % t.table_size] with
        | none => exact absurd hx hne
        | some x => rfl
      simp [hfalse]
    | none =>
      have hnone : t.slot ((t.hash hasher key + j) % t.table_size) = none := by
        rcases (not_busy_iff t key _).mp hj3 with h | ⟨v0, h⟩
        · exact h
        · rw [get_of_slot hasher t hwf hr _ key v0 h] at hg
          cases hg
      have hx := (slot_eq_none_iff t _ hp).mp hnone
      have hpos : 0 < List.countP Option.isNone t.table :=
        List.countP_pos_iff.mpr ⟨none, by rw [← hx]; exact List.getElem_mem _, rfl⟩
      simp only [hx, Option.isNone_none, if_true, Option.isSome_none, Bool.false_eq_true,
        if_false]
      omega

/-- The table after `ops` stands for the finite map `lastInsert ops`, and its
unused slots are those that the distinct keys of `ops` leave, as long as these
keys are not more than the slots. -/
theorem addAll_refines [DecidableEq K] (hasher : K → Nat) (size : Int) (ops : List (K × V))
    (hkeys : (ops.map Prod.fst).toFinset.card ≤ (new size : HashTable K V).table_size) :
    (addAll hasher size ops).free + (ops.map Prod.fst).toFinset.card =
      (new size : HashTable K V).table_size ∧
    ∀ key, (addAll hasher size ops).get hasher key = lastInsert ops key := by
  induction ops using List.reverseRecOn with
  | nil =>
    constructor
    · simp only [addAll, List.foldl_nil, List.map_nil, List.toFinset_nil, Finset.card_empty,
        Nat.add_zero]
      exact new_free size
    · intro key
      simp only [addAll, List.foldl_nil, lastInsert]
      exact new_get hasher size key
  | append_singleton ops op ih =>
    have hset : ((ops ++ [op]).map Prod.fst).toFinset =
        insert op.1 (ops.map Prod.fst).toFinset := by
      ext x
      simp only [List.map_append, List.map_cons, List.map_nil, List.toFinset_append,
        List.toFinset_cons, List.toFinset_nil, Finset.mem_union, Finset.mem_insert,
        Finset.mem_singleton, List.mem_toFinset, insert_emptyc_eq]
      tauto
    rw [hset] at hkeys ⊢
    have hle : (ops.map Prod.fst).toFinset.card ≤ (new size : HashTable K V).table_size :=
      Nat.le_trans (Finset.card_le_card (Finset.subset_insert _ _)) hkeys
    obtain ⟨ih1, ih2⟩ := ih hle
    have hwf := addAll_wf hasher size ops
    have hr := addAll_reachable hasher size ops
    have hsize := addAll_table_size hasher size ops
    have hroom : ∃ i, i < (addAll hasher size ops).table_size ∧
        ¬ (addAll hasher size ops).Busy op.1 i := by
      by_cases hmem : op.1 ∈ (ops.map Prod.fst).toFinset
      · have hsome : lastInsert ops op.1 ≠ none := by
          intro hcon
          exact (lastInsert_eq_none_iff ops op.1).mp hcon (List.mem_toFinset.mp hmem)
        rw [← ih2] at hsome
        cases hg : (addAll hasher size ops).get hasher op.1 with
        | none => exact absurd hg hsome
        | some v0 =>
          obtain ⟨i, hi⟩ := slot_of_get hasher _ hwf op.1 v0 hg
          have hlt := slot_lt _ i _ hi
          rw [hwf.length_eq] at hlt
          exact ⟨i, hlt, (not_busy_iff _ _ _).mpr (Or.inr ⟨v0, hi⟩)⟩
      · rw [Finset.card_insert_of_not_mem hmem] at hkeys
        exact room_of_free _ hwf (by omega) _
    have hfree := add_free_exact hasher _ hwf hr op.1 op.2 hroom
    rw [addAll_append]
    constructor
    · by_cases hmem : op.1 ∈ (ops.map Prod.fst).toFinset
      · have hsome : lastInsert ops op.1 ≠ none := by
          intro hcon
          exact (lastInsert_eq_none_iff ops op.1).mp hcon (List.mem_toFinset.mp hmem)
        rw [← ih2] at hsome
        have his : ((addAll hasher size ops).get hasher op.1).isSome = true := by
          cases hg : (addAll hasher size ops).get hasher op.1 with
          | none => exact absurd hg hsome
          | some v0 => rfl
        rw [his] at hfree
        rw [Finset.insert_eq_of_mem hmem]
        simp only [if_true] at hfree
        omega
      · have hnone : lastInsert ops op.1 = none :=
          (lastInsert_eq_none_iff ops op.1).mpr (fun h => hmem (List.mem_toFinset.mpr h))
        rw [← ih2] at hnone
        rw [hnone] at hfree
        rw [Finset.card_insert_of_not_mem hmem]
        simp only [Option.isSome_none, Bool.false_eq_true, if_false] at hfree
        omega
    · intro key
      rw [get_add hasher _ hwf hr _ _ hroom, lastInsert_append, ih2]
      by_cases h : op.1 = key
      · simp [h]
      · have h2 : ¬ key = op.1 := fun hh => h hh.symm
        simp [h, h2]

theorem new_table_size_pos (n : Nat) (hn : 0 < n) :
    (new (n : Int) : HashTable K V).table_size = n := by
  rw [new_table_size]
  have : ¬ ((n : Int) ≤ 0) := by omega
  simp [this]

/-- When every slot is busy for `key`, the loop of `add` started `d` slots after
`start` is still running after fewer tests than there are slots left. -/
theorem addProbe_short_fuel [DecidableEq K] (t : HashTable K V) (key : K) (s : Nat)
    (hs : s < t.table_size)
    (hfull : ∀ i, i < t.table_size → t.Busy key i) :
    ∀ fuel d, d + fuel < t.table_size →
      addProbe t key s fuel ((s + d) % t.table_size) = ProbeResult.exhausted := by
  intro fuel
  induction fuel with
  | zero => intro d _; rfl
  | succ f ih =>
    intro d hd
    obtain ⟨k, v, hk, hne⟩ := hfull ((s + d) % t.table_size) (Nat.mod_lt _ (by omega))
    have hne2 : (s + (d + 1)) % t.table_size ≠ s :=
      add_mod_ne_start _ _ _ hs (by omega) (by omega)
    have hrec : addProbe t key s (f + 1) ((s + d) % t.table_size) =
        addProbe t key s f ((s + (d + 1)) % t.table_size) := by
      simp [addProbe, hk, hne, step_mod, hne2, Nat.add_assoc]
    rw [hrec]
    exact ih (d + 1) (by omega)

/-- In a table where every slot is busy for `key`, `get` does not find `key`. -/
theorem get_of_full [DecidableEq K] (hasher : K → Nat) (t : HashTable K V) (hwf : t.WF)
    (key : K) (hfull : ∀ i, i < t.table_size → t.Busy key i) :
    t.get hasher key = none := by
  cases hg : t.get hasher key with
  | none => rfl
  | some v =>
    obtain ⟨i, hi⟩ := slot_of_get hasher t hwf key v hg
    have hlt := slot_lt _ i _ hi
    rw [hwf.length_eq] at hlt
    exact absurd (hfull i hlt) ((not_busy_iff t key i).mpr (Or.inr ⟨v, hi⟩))

end HashTable

/-! ## The dictionary of the encoder through a run -/

theorem HashTable.used_add_free {K V : Type} (t : HashTable K V) :
    t.used + t.free = t.table.length := by
  unfold HashTable.used HashTable.free
  induction t.table with
  | nil => rfl
  | cons a l ih =>
    cases a with
    | none => simp [List.countP_cons] at ih ⊢; omega
    | some x => simp [List.countP_cons] at ih ⊢; omega

theorem seedDictionary_eq_upTo (hasher : List Byte → Nat) :
    seedDictionary hasher = seedDictionaryUpTo hasher 256 := by
  unfold seedDictionary seedDictionaryUpTo
  rfl

theorem seedDictionaryUpTo_succ (hasher : List Byte → Nat) (n : Nat) :
    seedDictionaryUpTo hasher (n + 1) =
      (seedDictionaryUpTo hasher n).add hasher [Fin.ofNat n] (n : Int) := by
  unfold seedDictionaryUpTo
  rw [List.range_succ, List.foldl_append]
  rfl

theorem seedDictionaryUpTo_inv (hasher : List Byte → Nat) (n : Nat) (hn : n ≤ 256) :
    (seedDictionaryUpTo hasher n).WF ∧ (seedDictionaryUpTo hasher n).Reachable hasher ∧
    16384 ≤ (seedDictionaryUpTo hasher n).free + n ∧
    ∀ w, (seedDictionaryUpTo hasher n).get hasher w = seedCode n w :=
  seedFoldDict_inv hasher n hn

theorem seedDictionaryUpTo_table_size (hasher : List Byte → Nat) (n : Nat) :
    (seedDictionaryUpTo hasher n).table_size = 16384 := by
  induction n with
  | zero => rfl
  | succ n ih => rw [seedDictionaryUpTo_succ, HashTable.add_table_size, ih]

/-- An `add` on a table with room stops at a slot: it does not take the
`return` of line 44, and `get` finds the pair afterwards. -/
theorem HashTable.add_stored {K V : Type} [DecidableEq K] (hasher : K → Nat)
    (t : HashTable K V) (hwf : t.WF) (hr : t.Reachable hasher) (key : K) (value : V)
    (hroom : ∃ i, i < t.table_size ∧ ¬ t.Busy key i) :
    (∃ spot, HashTable.addProbe t key (t.hash hasher key) t.table_size (t.hash hasher key) =
      HashTable.ProbeResult.stop spot) ∧
    (t.add hasher key value).get hasher key = some value := by
  constructor
  · have hs := HashTable.hash_lt hasher t hwf key
    have h0 : (t.hash hasher key + 0) % t.table_size = t.hash hasher key :=
      Nat.mod_eq_of_lt hs
    have hc := HashTable.addProbe_cases t key _ hs t.table_size 0 (by omega) hwf.size_pos
    rw [h0] at hc
    rcases hc with ⟨_, h2⟩ | ⟨j, _, _, hj3, _, _⟩
    · obtain ⟨i, hi1, hi2⟩ := hroom
      obtain ⟨e, he1, he2⟩ := HashTable.add_mod_surj _ _ i hs hi1
      rw [← he2] at hi2
      exact absurd (h2 e (by omega) he1) hi2
    · exact ⟨_, hj3⟩
  · rw [HashTable.get_add hasher t hwf hr key value hroom]
    simp

/-- The first recorded pass finds the dictionary and the counter that the loop
started with, and each later one finds what the pass before it left. -/
theorem compressSteps_chain (hasher : List Byte → Nat) (rest : List Byte) :
    ∀ (t : HashTable (List Byte) Int) (n : Nat) (w : List Byte),
      (∀ s, (compressSteps hasher rest t n w)[0]? = some s →
        s.dictionary = t ∧ s.next_code = n) ∧
      (∀ i s s2, (compressSteps hasher rest t n w)[i]? = some s →
        (compressSteps hasher rest t n w)[i + 1]? = some s2 →
        s2.dictionary = s.grown hasher ∧
        s2.next_code = s.next_code + (if s.inserted.isSome then 1 else 0)) := by
  induction rest with
  | nil =>
    intro t n w
    constructor
    · intro s hs
      simp only [compressSteps, List.getElem?_cons_zero, Option.some.injEq] at hs
      subst hs
      exact ⟨rfl, rfl⟩
    · intro i s s2 _ hs2
      simp [compressSteps] at hs2
  | cons c rest ih =>
    intro t n w
    by_cases hc : c = 0
    · constructor
      · intro s hs
        simp only [compressSteps, hc, ne_eq, not_true_eq_false, and_false, if_false,
          List.getElem?_cons_zero, Option.some.injEq] at hs
        subst hs
        exact ⟨rfl, rfl⟩
      · intro i s s2 _ hs2
        simp [compressSteps, hc] at hs2
    · by_cases hfound : (t.get hasher (w ++ [c])).isSome = true
      · have heq : compressSteps hasher (c :: rest) t n w =
            compressSteps hasher rest t n (w ++ [c]) := by
          simp only [compressSteps, hc, hfound, ne_eq, not_false_eq_true, and_self, if_true]
        rw [heq]
        exact ih t n (w ++ [c])
      · by_cases hroom : n < 4096
        · have heq : compressSteps hasher (c :: rest) t n w =
              { dictionary := t, next_code := n, current_prefix := w, current_char := c } ::
                compressSteps hasher rest (t.add hasher (w ++ [c]) (n : Int)) (n + 1) [c] := by
            simp only [compressSteps, hc, hfound, hroom, ne_eq, not_false_eq_true,
              and_true, and_self, if_true, if_false, Bool.false_eq_true]
          have hins : EmitStep.inserted
              { dictionary := t, next_code := n, current_prefix := w, current_char := c } =
              some (w ++ [c], (n : Int)) := by
            simp [EmitStep.inserted, hc, hroom]
          rw [heq]
          obtain ⟨ih1, ih2⟩ := ih (t.add hasher (w ++ [c]) (n : Int)) (n + 1) [c]
          constructor
          · intro s hs
            simp only [List.getElem?_cons_zero, Option.some.injEq] at hs
            subst hs
            exact ⟨rfl, rfl⟩
          · intro i s s2 hs hs2
            rw [List.getElem?_cons_succ] at hs2
            cases i with
            | zero =>
              simp only [List.getElem?_cons_zero, Option.some.injEq] at hs
              subst hs
              obtain ⟨h1, h2⟩ := ih1 s2 hs2
              simp only [EmitStep.grown, hins, Option.isSome_some, if_true]
              exact ⟨h1, h2⟩
            | succ i =>
              rw [List.getElem?_cons_succ] at hs
              exact ih2 i s s2 hs hs2
        · have heq : compressSteps hasher (c :: rest) t n w =
              { dictionary := t, next_code := n, current_prefix := w, current_char := c } ::
                compressSteps hasher rest t n [c] := by
            simp only [compressSteps, hc, hfound, hroom, ne_eq, not_false_eq_true,
              and_true, and_false, if_true, if_false, Bool.false_eq_true]
          have hins : EmitStep.inserted
              { dictionary := t, next_code := n, current_prefix := w, current_char := c } =
              none := by
            simp [EmitStep.inserted, hroom]
          rw [heq]
          obtain ⟨ih1, ih2⟩ := ih t n [c]
          constructor
          · intro s hs
            simp only [List.getElem?_cons_zero, Option.some.injEq] at hs
            subst hs
            exact ⟨rfl, rfl⟩
          · intro i s s2 hs hs2
            rw [List.getElem?_cons_succ] at hs2
            cases i with
            | zero =>
              simp only [List.getElem?_cons_zero, Option.some.injEq] at hs
              subst hs
              obtain ⟨h1, h2⟩ := ih1 s2 hs2
              simp only [EmitStep.grown, hins, Option.isSome_none, Bool.false_eq_true,
                if_false, Nat.add_zero]
              exact ⟨h1, h2⟩
            | succ i =>
              rw [List.getElem?_cons_succ] at hs
              exact ih2 i s s2 hs hs2

/-- The element of index `k` of a `filterMap` comes from an element of the list
before which `k` elements were kept. -/
theorem filterMap_getElem? {α β : Type} (f : α → Option β) (l : List α) (k : Nat) (b : β)
    (h : (l.filterMap f)[k]? = some b) :
    ∃ i a, l[i]? = some a ∧ f a = some b ∧ ((l.take i).filterMap f).length = k := by
  induction l generalizing k with
  | nil => simp at h
  | cons x l ih =>
    cases hx : f x with
    | none =>
      rw [List.filterMap_cons_none hx] at h
      obtain ⟨i, a, h1, h2, h3⟩ := ih k h
      refine ⟨i + 1, a, by simpa using h1, h2, ?_⟩
      rw [List.take_succ_cons, List.filterMap_cons_none hx]
      exact h3
    | some y =>
      rw [List.filterMap_cons_some hx] at h
      cases k with
      | zero =>
        simp only [List.getElem?_cons_zero, Option.some.injEq] at h
        exact ⟨0, x, by simp, by rw [hx, h], by simp⟩
      | succ k =>
        rw [List.getElem?_cons_succ] at h
        obtain ⟨i, a, h1, h2, h3⟩ := ih k h
        refine ⟨i + 1, a, by simpa using h1, h2, ?_⟩
        rw [List.take_succ_cons, List.filterMap_cons_some hx, List.length_cons, h3]

/-- What a recorded pass of a run of `compress` finds: the table holds the seeds
and the pairs inserted by the passes before it, which have the codes 256,
257, ..., and `next_code` is 256 plus their number, at most 4096. -/
theorem emitSteps_tracked (hasher : List Byte → Nat) (text : List Byte) (i : Nat)
    (s : EmitStep) (hs : (emitSteps hasher text)[i]? = some s) :
    Tracked hasher s.dictionary s.next_code
      (((emitSteps hasher text).take i).filterMap EmitStep.inserted) := by
  cases text with
  | nil => simp [emitSteps] at hs
  | cons first rest =>
    simp only [emitSteps] at hs ⊢
    have h := (compressSteps_tracked hasher rest _ _ [first] []
      (seedDictionary_tracked hasher) (by rw [lookupCode_single]; rfl) i s hs).1
    simpa using h

/-- The loop of `compress` stops reading at a zero byte. -/
theorem compressLoop_takeWhile (hasher : List Byte → Nat) (rest : List Byte) :
    ∀ (t : HashTable (List Byte) Int) (n : Nat) (w : List Byte),
      compressLoop hasher rest t n w =
        compressLoop hasher (rest.takeWhile (fun c => c ≠ 0)) t n w := by
  induction rest with
  | nil => intro t n w; rfl
  | cons c rest ih =>
    intro t n w
    by_cases hc : c = 0
    · simp [compressLoop, hc]
    · have htw : (c :: rest).takeWhile (fun c => c ≠ 0) =
          c :: rest.takeWhile (fun c => c ≠ 0) := by
        simp [List.takeWhile_cons, hc]
      rw [htw]
      simp only [compressLoop, hc, ne_eq, not_false_eq_true, if_true, and_true, true_and]
      split
      · exact ih _ _ _
      · rw [ih]

theorem takeWhile_split (rest : List Byte) (h : (0 : Byte) ∈ rest) :
    ∃ after, rest = rest.takeWhile (fun c => c ≠ 0) ++ 0 :: after := by
  induction rest with
  | nil => simp at h
  | cons c rest ih =>
    by_cases hc : c = 0
    · exact ⟨rest, by simp [List.takeWhile_cons, hc]⟩
    · have hmem : (0 : Byte) ∈ rest := by
        rcases List.mem_cons.mp h with h1 | h1
        · exact absurd h1.symm hc
        · exact h1
      obtain ⟨after, ha⟩ := ih hmem
      refine ⟨after, ?_⟩
      simp only [List.takeWhile_cons, hc, ne_eq, not_false_eq_true, decide_True, if_true,
        List.cons_append]
      rw [← ha]

theorem compress_readPart (hasher : List Byte → Nat) (text : List Byte) :
    compress hasher text = compress hasher (readPart text) := by
  cases text with
  | nil => rfl
  | cons first rest =>
    simp only [compress, readPart]
    exact compressLoop_takeWhile hasher rest _ _ _

theorem inserted_eq_some (s : EmitStep) (p : List Byte × Int) (h : s.inserted = some p) :
    p = ( s.current_prefix ++ [s.current_char], (s.next_code : Int)) ∧
    s.current_char ≠ 0 ∧ s.next_code < 4096 := by
  unfold EmitStep.inserted at h
  split at h
  · rename_i hc
    simp only [Option.some.injEq] at h
    exact ⟨h.symm, hc.1, hc.2⟩
  · cases h

theorem compressSteps_ne_nil (hasher : List Byte → Nat) (rest : List Byte) :
    ∀ (t : HashTable (List Byte) Int) (n : Nat) (w : List Byte),
      compressSteps hasher rest t n w ≠ [] := by
  induction rest with
  | nil => intro t n w; simp [compressSteps]
  | cons c rest ih =>
    intro t n w
    by_cases hc : c = 0
    · simp [compressSteps, hc]
    · by_cases hfound : (t.get hasher (w ++ [c])).isSome = true
      · simp only [compressSteps, hc, hfound, ne_eq, not_false_eq_true, and_self, if_true]
        exact ih _ _ _
      · simp [compressSteps, hc, hfound]

theorem emitSteps_ne_nil (hasher : List Byte → Nat) (text : List Byte) (h : text ≠ []) :
    emitSteps hasher text ≠ [] := by
  cases text with
  | nil => exact absurd rfl h
  | cons first rest => exact compressSteps_ne_nil hasher rest _ _ _

theorem emitSteps_chain (hasher : List Byte → Nat) (text : List Byte) :
    (∀ s : EmitStep, (emitSteps hasher text)[0]? = some s →
      s.dictionary = seedDictionary hasher ∧ s.next_code = 256) ∧
    (∀ (i : Nat) (s s2 : EmitStep), (emitSteps hasher text)[i]? = some s →
      (emitSteps hasher text)[i + 1]? = some s2 →
      s2.dictionary = s.grown hasher ∧
      s2.next_code = s.next_code + (if s.inserted.isSome then 1 else 0)) := by
  cases text with
  | nil => simp [emitSteps]
  | cons first rest => exact compressSteps_chain hasher rest _ _ _

theorem grown_table_size (hasher : List Byte → Nat) (s : EmitStep) :
    (s.grown hasher).table_size = s.dictionary.table_size := by
  unfold EmitStep.grown
  split
  · exact HashTable.add_table_size _ _ _ _
  · rfl

/-- The dictionary of every recorded pass has the 16384 slots of line 81. -/
theorem emitSteps_table_size (hasher : List Byte → Nat) (text : List Byte) :
    ∀ (i : Nat) (s : EmitStep), (emitSteps hasher text)[i]? = some s → s.dictionary.table_size = 16384 := by
  obtain ⟨h0, hsucc⟩ := emitSteps_chain hasher text
  intro i
  induction i with
  | zero =>
    intro s hs
    rw [(h0 s hs).1, seedDictionary_eq_upTo, seedDictionaryUpTo_table_size]
  | succ i ih =>
    intro s2 hs2
    have hlt : i + 1 < (emitSteps hasher text).length := by
      by_contra hcon
      rw [List.getElem?_eq_none (by omega)] at hs2
      cases hs2
    have hs : (emitSteps hasher text)[i]? = some (emitSteps hasher text)[i] :=
      List.getElem?_eq_getElem (by omega)
    rw [(hsucc i _ s2 hs hs2).1, grown_table_size]
    exact ih _ hs

/-- The run on a text of two bytes, the second not zero, has two passes that
write a code; the first inserts the text with the code 256. -/
theorem emitSteps_two_bytes (hasher : List Byte → Nat) (a b : Byte) (hb : b ≠ 0) :
    emitSteps hasher [a, b] =
      [{ dictionary := seedDictionary hasher, next_code := 256,
         current_prefix := [a], current_char := b },
       { dictionary := (seedDictionary hasher).add hasher [a, b] 256, next_code := 257,
         current_prefix := [b], current_char := 0 }] := by
  have hget : (seedDictionary hasher).get hasher [a, b] = none := by
    rw [(seedDictionary_inv hasher).get_eq]
    simp [lookupCode, entryIndex]
  simp [emitSteps, compressSteps, hb, hget]

/-! ## The strings and the accesses of the decoder -/

theorem decompressLoop_output_eq (cs : List Int) (st : DecodeState) :
    (decompressLoop cs st).output = (loopEntries cs st).flatten := by
  induction cs generalizing st with
  | nil => rfl
  | cons c cs ih =>
    cases he : currentEntry st c with
    | none => simp [decompressLoop, loopEntries, he]
    | some e => simp [decompressLoop, loopEntries, he, ih]

/-- The bytes written by `decompress` are its written strings, one after the
other. -/
theorem decompress_output_eq (numbers : List Int) :
    (decompress numbers).output = (writtenEntries numbers).flatten := by
  cases numbers with
  | nil => rfl
  | cons first rest =>
    simp only [decompress, writtenEntries]
    split
    · rfl
    · simp only [List.flatten_cons]
      rw [decompressLoop_output_eq]

/-- After `k` accepted codes, `previous_entry` is the string written for the
last of them. -/
theorem loopEntries_previous (k : Nat) :
    ∀ (cs : List Int) (st0 st : DecodeState), k ≤ cs.length →
      runCodes (cs.take k) st0 = some st →
      (st0.previous_entry :: loopEntries cs st0)[k]? = some st.previous_entry := by
  induction k with
  | zero =>
    intro cs st0 st _ hrun
    simp only [List.take_zero, runCodes, Option.some.injEq] at hrun
    subst hrun
    simp
  | succ k ih =>
    intro cs st0 st hk hrun
    cases cs with
    | nil => simp at hk
    | cons c cs =>
      simp only [List.take_succ_cons, runCodes] at hrun
      cases he : currentEntry st0 c with
      | none => rw [he] at hrun; cases hrun
      | some e =>
        rw [he] at hrun
        simp only at hrun
        have h := ih cs (advance st0 e) st (by simpa using hk) hrun
        rw [advance_previous] at h
        rw [List.getElem?_cons_succ]
        simp only [loopEntries, he]
        exact h

/-- The string written for the code that follows `k` accepted codes. -/
theorem loopEntries_current (k : Nat) :
    ∀ (cs : List Int) (st0 st : DecodeState) (e : List Byte), k < cs.length →
      runCodes (cs.take k) st0 = some st → currentEntry st (cs.getD k 0) = some e →
      (loopEntries cs st0)[k]? = some e := by
  induction k with
  | zero =>
    intro cs st0 st e hk hrun he
    simp only [List.take_zero, runCodes, Option.some.injEq] at hrun
    subst hrun
    cases cs with
    | nil => simp at hk
    | cons c cs =>
      simp only [List.getD_cons_zero] at he
      simp [loopEntries, he]
  | succ k ih =>
    intro cs st0 st e hk hrun he
    cases cs with
    | nil => simp at hk
    | cons c cs =>
      simp only [List.take_succ_cons, runCodes] at hrun
      cases hc : currentEntry st0 c with
      | none => rw [hc] at hrun; cases hrun
      | some e0 =>
        rw [hc] at hrun
        simp only at hrun
        simp only [List.getD_cons_succ] at he
        have h := ih cs (advance st0 e0) st e (by simpa using hk) hrun he
        simp only [loopEntries, hc, List.getElem?_cons_succ]
        exact h

/-- The codes of "ABABABA", whatever the hash function. -/
theorem abababa_run (hasher : List Byte → Nat) :
    compress hasher [65, 66, 65, 66, 65, 66, 65] = [65, 66, 256, 258] := by
  rw [compress_eq_abs]
  decide

/-- The run of `decompress` on `[65, 66, 256, 258]` accepts the codes 66 and
256 before it meets 258. -/
theorem kwk_example_state :
    ∃ st, runCodes ([(66 : Int), 256, 258].take 2) (initialState 65) = some st := by
  have hdec : decompress [65, 66, 256, 258] =
      { output := readPart [65, 66, 65, 66, 65, 66, 65], error := none } := by
    rw [← abababa_run (fun _ => 0)]
    exact decompress_compress _ _
  rw [decompress_cons_valid 65 _ (by omega)] at hdec
  have herr : (decompressLoop [66, 256, 258] (initialState 65)).error = none := by
    have := congrArg DecodeResult.error hdec
    simpa using this
  rw [decompressLoop_error_none_iff] at herr
  have happ : [(66 : Int), 256, 258] = [66, 256] ++ [258] := rfl
  rw [happ, runCodes_append] at herr
  cases h : runCodes [66, 256] (initialState 65) with
  | none => rw [h] at herr; simp at herr
  | some st => exact ⟨st, by simpa using h⟩

theorem passAccesses_inRange (st : DecodeState) (c : Int) (hinv : DecodeInv st) :
    ∀ a ∈ passAccesses st c, a.inRange 4096 := by
  intro a ha
  have hlen := hinv.length_eq
  unfold passAccesses at ha
  rcases List.mem_append.mp ha with h12 | h3
  · rcases List.mem_append.mp h12 with h1 | h2
    · split at h1
      · rename_i hc
        simp only [List.mem_singleton] at h1
        subst h1
        exact ⟨hc.1, by rw [← hlen]; exact hc.2.2⟩
      · simp at h1
    · split at h2
      · rename_i hc
        simp only [List.mem_singleton] at h2
        subst h2
        exact ⟨hc.1, by rw [← hlen]; exact hc.2.2.1⟩
      · split at h2
        · simp only [List.mem_singleton] at h2
          subst h2
          exact hinv.previous_ne
        · simp at h2
  · split at h3
    · rename_i e he
      split at h3
      · rename_i hlt
        simp only [List.mem_cons, List.mem_singleton, List.not_mem_nil, or_false] at h3
        rcases h3 with h | h
        · subst h
          exact currentEntry_ne_nil st c e he
        · subst h
          exact ⟨by omega, by omega⟩
      · simp at h3
    · simp at h3

theorem loopAccesses_inRange (cs : List Int) (st : DecodeState) (hinv : DecodeInv st) :
    ∀ a ∈ loopAccesses cs st, a.inRange 4096 := by
  induction cs generalizing st with
  | nil => intro a ha; simp [loopAccesses] at ha
  | cons c cs ih =>
    intro a ha
    simp only [loopAccesses] at ha
    rcases List.mem_append.mp ha with h | h
    · exact passAccesses_inRange st c hinv a h
    · split at h
      · simp at h
      · rename_i e he
        exact ih _ (advance_inv st e hinv (currentEntry_ne_nil st c e he)) a h

/-- The table of two slots that holds the keys 1 and 2 is full. -/
theorem full_example_busy (i : Nat)
    (hi : i < (HashTable.addAll (fun k => k) 2 [((1 : Nat), (10 : Nat)), (2, 20)]).table_size) :
    (HashTable.addAll (fun k => k) 2 [((1 : Nat), (10 : Nat)), (2, 20)]).Busy 3 i := by
  have h2 : i < 2 := hi
  match i, h2 with
  | 0, _ => exact ⟨2, 20, by decide, by decide⟩
  | 1, _ => exact ⟨1, 10, by decide, by decide⟩

/-! ## The properties of the codec, C1 to C20 -/

/-- C1, as amended: decoding what `compress` wrote for `text` ends without error
and gives back the bytes `compress` read, `readPart text`: the first byte and
the bytes after it up to the first zero byte, left out with all that follows.
This is `text` itself exactly when no byte after the first is zero. -/
theorem decompress_compress_readPart (hasher : List Byte → Nat) (text : List Byte) :
    decompress (compress hasher text) = { output := readPart text, error := none } ∧
    (readPart text = text ↔ ∀ c ∈ text.tail, c ≠ 0) :=
  ⟨decompress_compress hasher text, readPart_eq_self_iff text⟩

/-- C1 fails on the text `[65, 0, 66]`: `compress` stops reading at the zero
byte and the decoder gives back `[65]` only. -/
theorem roundtrip_zero_byte_counterexample :
    decompress (compress (fun _ => 0) [65, 0, 66]) = { output := [65], error := none } ∧
    (decompress (compress (fun _ => 0) [65, 0, 66])).output ≠ [65, 0, 66] := by
  have h : decompress (compress (fun _ => 0) [65, 0, 66]) =
      { output := [65], error := none } := by
    rw [decompress_compress]; rfl
  refine ⟨h, ?_⟩
  rw [h]
  decide

/-- C2: when no byte of `text` after the first is zero, decoding what
`compress` wrote ends without error and gives back `text`, whatever the length
of `text` and the hash function. -/
theorem decompress_compress_no_zero (hasher : List Byte → Nat) (text : List Byte)
    (h : ∀ c ∈ text.tail, c ≠ 0) :
    decompress (compress hasher text) = { output := text, error := none } := by
  rw [decompress_compress, (readPart_eq_self_iff text).mpr h]

/-- C2, at the text "ABABABA" with the hash function that sends every key to
slot 0. -/
theorem decompress_compress_no_zero_witness :
    (∀ c ∈ ([65, 66, 65, 66, 65, 66, 65] : List Byte).tail, c ≠ 0) ∧
    decompress (compress (fun _ => 0) [65, 66, 65, 66, 65, 66, 65]) =
      { output := [65, 66, 65, 66, 65, 66, 65], error := none } :=
  ⟨by simp, decompress_compress_no_zero (fun _ => 0) [65, 66, 65, 66, 65, 66, 65] (by simp)⟩

/-- C3: on a non-empty code sequence `decompress` reports `InvalidStartCode`
exactly when the first code is outside `0 .. 255`, and then it has written no
byte at all. -/
theorem decompress_invalidStartCode_iff (first : Int) (rest : List Int) :
    ((∃ c, (decompress (first :: rest)).error = some (DecodeError.InvalidStartCode c)) ↔
      (first < 0 ∨ 255 < first)) ∧
    ((first < 0 ∨ 255 < first) →
      decompress (first :: rest) =
        { output := [], error := some (DecodeError.InvalidStartCode first) }) := by
  refine ⟨⟨?_, ?_⟩, decompress_cons_invalid first rest⟩
  · rintro ⟨c, hc⟩
    by_contra hcon
    rw [decompress_cons_valid first rest (by omega)] at hc
    exact decompressLoop_not_invalidStart _ _ _ hc
  · intro h
    exact ⟨first, by rw [decompress_cons_invalid first rest h]⟩

/-- C3, at the code sequence `[300]`. -/
theorem decompress_invalidStartCode_witness :
    ((300 : Int) < 0 ∨ 255 < (300 : Int)) ∧
    decompress [300] = { output := [], error := some (DecodeError.InvalidStartCode 300) } :=
  ⟨by decide, (decompress_invalidStartCode_iff 300 []).2 (by decide)⟩

/-- C4: when the first code is in `0 .. 255`, `decompress` reports
`InvalidCode c` exactly when the loop reaches, every earlier code having been
accepted, a code `c` that is neither a code assigned before (`0 ≤ c` and
`c < next_available_code` in the state reached) nor equal to
`next_available_code`; the state reached before the code of index `k + 1` has
`next_available_code = min (256 + k) 4096`. -/
theorem decompress_invalidCode_iff (first : Int) (rest : List Int)
    (hfirst : 0 ≤ first ∧ first ≤ 255) (c : Int) :
    ((decompress (first :: rest)).error = some (DecodeError.InvalidCode c) ↔
      ∃ k st, k < rest.length ∧ rest.getD k 0 = c ∧
        runCodes (rest.take k) (initialState first) = some st ∧
        ¬ (0 ≤ c ∧ c < (st.next_available_code : Int)) ∧
        c ≠ (st.next_available_code : Int)) ∧
    (∀ k st, k ≤ rest.length → runCodes (rest.take k) (initialState first) = some st →
      st.next_available_code = min (256 + k) 4096) := by
  have hinv := initialState_inv first hfirst
  constructor
  · rw [decompress_cons_valid first rest hfirst]
    exact decompressLoop_invalidCode_iff rest _ hinv c
  · intro k st hk hrun
    have h := (runCodes_inv _ _ _ hinv hrun).2
    rw [h, List.length_take, Nat.min_eq_left hk]
    simp only [initialState]

/-- C4, at the code sequence `[65, 9999]`. -/
theorem decompress_invalidCode_witness :
    (0 ≤ (65 : Int) ∧ (65 : Int) ≤ 255) ∧
    (decompress [65, 9999]).error = some (DecodeError.InvalidCode 9999) ∧
    ∃ k st, k < [(9999 : Int)].length ∧ [(9999 : Int)].getD k 0 = 9999 ∧
      runCodes ([(9999 : Int)].take k) (initialState 65) = some st ∧
      ¬ (0 ≤ (9999 : Int) ∧ (9999 : Int) < (st.next_available_code : Int)) ∧
      (9999 : Int) ≠ (st.next_available_code : Int) :=
  ⟨by decide, by decide,
    (decompress_invalidCode_iff 65 [9999] (by decide) 9999).1.mp (by decide)⟩

/-- C5: when `decompress` reports `InvalidCode c`, the code `c` stands at an
index `k ≥ 1`, the run on the first `k` codes ends without error and writes
exactly the bytes of the failing run, and the run on the first `k + 1` codes
already fails with the same output: nothing is written for the code of index
`k` or for a later one. -/
theorem decompress_invalidCode_output (numbers : List Int) (c : Int)
    (h : (decompress numbers).error = some (DecodeError.InvalidCode c)) :
    ∃ k, 1 ≤ k ∧ k < numbers.length ∧ numbers.getD k 0 = c ∧
      decompress (numbers.take k) =
        { output := (decompress numbers).output, error := none } ∧
      decompress (numbers.take (k + 1)) =
        { output := (decompress numbers).output,
          error := some (DecodeError.InvalidCode c) } := by
  cases numbers with
  | nil => simp [decompress] at h
  | cons first rest =>
    by_cases hf : first < 0 ∨ 255 < first
    · rw [decompress_cons_invalid first rest hf] at h
      simp at h
    · have hv : 0 ≤ first ∧ first ≤ 255 := by omega
      rw [decompress_cons_valid first rest hv] at h
      obtain ⟨k, hk1, hk2, hk3, hk4⟩ := decompressLoop_invalidCode_output rest _ c h
      refine ⟨k + 1, by omega, by simpa using hk1, by simpa using hk2, ?_, ?_⟩
      · rw [List.take_succ_cons, decompress_cons_valid first _ hv,
          decompress_cons_valid first rest hv, hk3]
      · rw [List.take_succ_cons, decompress_cons_valid first _ hv,
          decompress_cons_valid first rest hv, hk4]

/-- C5, at the code sequence `[65, 66, 9999, 67]`. -/
theorem decompress_invalidCode_output_witness :
    (decompress [65, 66, 9999, 67]).error = some (DecodeError.InvalidCode 9999) ∧
    ∃ k, 1 ≤ k ∧ k < [(65 : Int), 66, 9999, 67].length ∧
      [(65 : Int), 66, 9999, 67].getD k 0 = 9999 ∧
      decompress ([(65 : Int), 66, 9999, 67].take k) =
        { output := (decompress [65, 66, 9999, 67]).output, error := none } ∧
      decompress ([(65 : Int), 66, 9999, 67].take (k + 1)) =
        { output := (decompress [65, 66, 9999, 67]).output,
          error := some (DecodeError.InvalidCode 9999) } :=
  ⟨decompress_example_error,
    decompress_invalidCode_output [65, 66, 9999, 67] 9999 decompress_example_error⟩

/-- C6: `compress` writes no code for the empty text, whatever the hash
function, and `decompress` writes no byte and reports no error for the empty
code sequence. -/
theorem compress_decompress_empty (hasher : List Byte → Nat) :
    compress hasher [] = [] ∧ decompress [] = { output := [], error := none } :=
  ⟨by simp only [compress], by simp only [decompress]⟩

/-- C7, as amended: `compress` writes the codes `[98, 97, 110, 257, 97]` for
"banana", whatever the hash function: the second "an" is found in the
dictionary under the code 257. -/
theorem compress_banana_eq (hasher : List Byte → Nat) :
    compress hasher [98, 97, 110, 97, 110, 97] = [98, 97, 110, 257, 97] :=
  banana_run hasher

/-- C7 fails: the codes of "banana" are not `[98, 97, 110, 97, 110, 97]`. -/
theorem banana_spec_codes_refuted :
    compress (fun _ => 0) [98, 97, 110, 97, 110, 97] ≠ [98, 97, 110, 97, 110, 97] := by
  rw [banana_run]
  decide

/-- C8: when every code lies in `0 .. 255`, `decompress` reports no error and
writes one byte per code, the byte of index `i` having the value of the code
of index `i`. -/
theorem decompress_seed_codes (numbers : List Int)
    (h : ∀ c ∈ numbers, 0 ≤ c ∧ c ≤ 255) :
    (decompress numbers).error = none ∧
    (decompress numbers).output = numbers.map (fun c => (Fin.ofNat c.toNat : Byte)) ∧
    (decompress numbers).output.map (fun b => ((b.val : Nat) : Int)) = numbers := by
  have hmap : ∀ l : List Int, (∀ c ∈ l, 0 ≤ c ∧ c ≤ 255) →
      (l.map (fun c => (Fin.ofNat c.toNat : Byte))).map (fun b => ((b.val : Nat) : Int)) = l := by
    intro l hl
    induction l with
    | nil => rfl
    | cons a l ih =>
      simp only [List.map_cons]
      rw [byte_val_ofNat a (hl a (List.mem_cons_self _ _)),
        ih (fun x hx => hl x (List.mem_cons_of_mem _ hx))]
  have hout : (decompress numbers).error = none ∧
      (decompress numbers).output = numbers.map (fun c => (Fin.ofNat c.toNat : Byte)) := by
    cases numbers with
    | nil => exact ⟨rfl, rfl⟩
    | cons first rest =>
      have hf := h first (List.mem_cons_self _ _)
      rw [decompress_cons_valid first rest hf,
        decompressLoop_seed_codes rest _ (initialState_inv first hf)
          (fun x hx => h x (List.mem_cons_of_mem _ hx))]
      exact ⟨rfl, rfl⟩
  refine ⟨hout.1, hout.2, ?_⟩
  rw [hout.2]
  exact hmap numbers h

/-- C8, at the codes `[98, 97, 110, 97, 110, 97]` of "banana". -/
theorem decompress_seed_codes_witness :
    (∀ c ∈ [(98 : Int), 97, 110, 97, 110, 97], 0 ≤ c ∧ c ≤ 255) ∧
    (decompress [98, 97, 110, 97, 110, 97]).error = none ∧
    (decompress [98, 97, 110, 97, 110, 97]).output = [98, 97, 110, 97, 110, 97] :=
  ⟨by decide,
    (decompress_seed_codes [98, 97, 110, 97, 110, 97] (by decide)).1,
    (decompress_seed_codes [98, 97, 110, 97, 110, 97] (by decide)).2.1⟩

/-- C9: the codes `compress` writes are those of its passes through line 112;
each pass writes exactly one code `c` with `0 ≤ c ≤ 4095` and `c < next_code`
at that moment, and `c` is the byte of the one-byte current string or the code
that an insertion of an earlier pass of the run gave to the current string.
Hence every code written lies in `0 .. 4095`. -/
theorem compress_codes_valid (hasher : List Byte → Nat) (text : List Byte) :
    compress hasher text = (emitSteps hasher text).flatMap (EmitStep.written hasher) ∧
    (∀ (i : Nat) (hi : i < (emitSteps hasher text).length), ∃ c : Int,
      (emitSteps hasher text)[i].written hasher = [c] ∧ 0 ≤ c ∧ c ≤ 4095 ∧
      c < ((emitSteps hasher text)[i].next_code : Int) ∧
      ((c < 256 ∧ ∃ b : Byte, EmitStep.current_prefix ((emitSteps hasher text)[i]) = [b] ∧
          c = ((b.val : Nat) : Int)) ∨
        ∃ (j : Nat) (hj : j < (emitSteps hasher text).length), j < i ∧
          (emitSteps hasher text)[j].inserted =
            some ( EmitStep.current_prefix ((emitSteps hasher text)[i]), c))) ∧
    (∀ c ∈ compress hasher text, 0 ≤ c ∧ c ≤ 4095) := by
  have hsteps : ∀ (i : Nat) (hi : i < (emitSteps hasher text).length), ∃ c : Int,
      (emitSteps hasher text)[i].written hasher = [c] ∧ 0 ≤ c ∧ c ≤ 4095 ∧
      c < ((emitSteps hasher text)[i].next_code : Int) ∧
      ((c < 256 ∧ ∃ b : Byte, EmitStep.current_prefix ((emitSteps hasher text)[i]) = [b] ∧
          c = ((b.val : Nat) : Int)) ∨
        ∃ (j : Nat) (hj : j < (emitSteps hasher text).length), j < i ∧
          (emitSteps hasher text)[j].inserted =
            some ( EmitStep.current_prefix ((emitSteps hasher text)[i]), c)) := by
    intro i hi
    obtain ⟨c, h1, h2, h3, h4, h5⟩ := emitSteps_written hasher text i _
      (List.getElem?_eq_getElem hi)
    refine ⟨c, h1, h2, by omega, h3, ?_⟩
    rcases h5 with ⟨b, hb1, hb2⟩ | ⟨j, s2, hj1, hj2, hj3⟩
    · left
      have := b.isLt
      exact ⟨by omega, b, hb1, hb2⟩
    · right
      obtain ⟨hj, hj4⟩ := List.getElem?_eq_some.mp hj2
      exact ⟨j, hj, hj1, by rw [hj4]; exact hj3⟩
  refine ⟨compress_eq_steps hasher text, hsteps, ?_⟩
  intro c hc
  rw [compress_eq_steps, List.mem_flatMap] at hc
  obtain ⟨s, hs1, hs2⟩ := hc
  obtain ⟨i, hi, his⟩ := List.getElem_of_mem hs1
  obtain ⟨c2, h1, h2, h3, _⟩ := hsteps i hi
  rw [his] at h1
  rw [h1] at hs2
  simp only [List.mem_singleton] at hs2
  rw [hs2]
  exact ⟨h2, h3⟩

/-- C9, at the pass of index 3 of the run on "ABABABA", which writes the code
258 of the string "ABA". -/
theorem compress_codes_valid_witness :
    ∃ hi : 3 < (emitSteps (fun _ => 0) [65, 66, 65, 66, 65, 66, 65]).length, ∃ c : Int,
      (emitSteps (fun _ => 0) [65, 66, 65, 66, 65, 66, 65])[3].written (fun _ => 0) = [c] ∧
      0 ≤ c ∧ c ≤ 4095 ∧
      c < ((emitSteps (fun _ => 0) [65, 66, 65, 66, 65, 66, 65])[3].next_code : Int) ∧
      ((c < 256 ∧ ∃ b : Byte,
          EmitStep.current_prefix ((emitSteps (fun _ => 0) [65, 66, 65, 66, 65, 66, 65])[3]) =
            [b] ∧ c = ((b.val : Nat) : Int)) ∨
        ∃ (j : Nat) (hj : j < (emitSteps (fun _ => 0) [65, 66, 65, 66, 65, 66, 65]).length),
          j < 3 ∧
          (emitSteps (fun _ => 0) [65, 66, 65, 66, 65, 66, 65])[j].inserted =
            some ( EmitStep.current_prefix
              ((emitSteps (fun _ => 0) [65, 66, 65, 66, 65, 66, 65])[3]), c)) :=
  ⟨by rw [emitSteps_example_length]; omega,
    (compress_codes_valid (fun _ => 0) [65, 66, 65, 66, 65, 66, 65]).2.1 3
      (by rw [emitSteps_example_length]; omega)⟩

/-- C10: the code sequence made of 3841 times the code 65 followed by the code
4096 is decoded without error, although its last code is above 4095. -/
theorem decompress_accepts_4096 :
    (decompress (65 :: (List.replicate 3840 65 ++ [4096]))).error = none ∧
    (4096 : Int) ∈ (65 : Int) :: (List.replicate 3840 65 ++ [4096]) ∧
    ¬ ((4096 : Int) ≤ 4095) :=
  ⟨decompress_ceiling_code 3840 (Nat.le_refl _),
    List.mem_cons_of_mem _ (List.mem_append_right _ (List.mem_singleton_self _)),
    by decide⟩

/-- C11: for every hash function and every capacity `n > 0`, after the inserts
`ops` on a fresh table, with at most `n` distinct keys, `get` answers for every
key the value of its most recent insert, `lastInsert ops key`, which is `none`
exactly for the keys that were never inserted. -/
theorem get_addAll_eq_lastInsert {K V : Type} [DecidableEq K] (hasher : K → Nat) (n : Nat)
    (hn : 0 < n) (ops : List (K × V))
    (hkeys : (ops.map Prod.fst).toFinset.card ≤ n) (key : K) :
    (HashTable.addAll hasher (n : Int) ops).get hasher key = HashTable.lastInsert ops key ∧
    (HashTable.lastInsert ops key = none ↔ key ∉ ops.map Prod.fst) := by
  refine ⟨?_, HashTable.lastInsert_eq_none_iff ops key⟩
  have hsize := HashTable.new_table_size_pos (K := K) (V := V) n hn
  exact (HashTable.addAll_refines hasher (n : Int) ops (by rw [hsize]; exact hkeys)).2 key

/-- C11, on a table of two slots where the keys 1 and 3 collide: the second
insert of key 1 overwrites the first. -/
theorem get_addAll_eq_lastInsert_witness :
    0 < 2 ∧
    (([(1, 10), (3, 20), (1, 30)] : List (Nat × Nat)).map Prod.fst).toFinset.card ≤ 2 ∧
    (HashTable.addAll (fun k => k) (2 : Nat) [(1, 10), (3, 20), (1, 30)]).get (fun k => k) 1 =
      some 30 :=
  ⟨by decide, by decide,
    (get_addAll_eq_lastInsert (fun k => k) 2 (by decide)
      ([(1, 10), (3, 20), (1, 30)] : List (Nat × Nat)) (by decide) 1).1.trans (by decide)⟩

/-- C12: in a table whose slots are all used, none of them by `key`, the loop
of `add` tests every slot (it is still running after any smaller number of
tests) and returns at its start, `add` leaves the table as it was, and `get`
still does not find `key`. -/
theorem add_full_noop {K V : Type} [DecidableEq K] (hasher : K → Nat) (t : HashTable K V)
    (hwf : t.WF) (key : K) (value : V)
    (hfull : ∀ i, i < t.table_size → t.Busy key i) :
    HashTable.addProbe t key (t.hash hasher key) t.table_size (t.hash hasher key) =
      HashTable.ProbeResult.full ∧
    (∀ fuel, fuel < t.table_size →
      HashTable.addProbe t key (t.hash hasher key) fuel (t.hash hasher key) =
        HashTable.ProbeResult.exhausted) ∧
    t.add hasher key value = t ∧
    (t.add hasher key value).get hasher key = none := by
  have hs := HashTable.hash_lt hasher t hwf key
  have h0 : (t.hash hasher key + 0) % t.table_size = t.hash hasher key :=
    Nat.mod_eq_of_lt hs
  have hprobe : HashTable.addProbe t key (t.hash hasher key) t.table_size
      (t.hash hasher key) = HashTable.ProbeResult.full := by
    have hc := HashTable.addProbe_cases t key _ hs t.table_size 0 (by omega) hwf.size_pos
    rw [h0] at hc
    rcases hc with ⟨h1, _⟩ | ⟨j, _, hj2, _, hj4, _⟩
    · exact h1
    · exact absurd (hfull _ (Nat.mod_lt _ hwf.size_pos)) hj4
  have hadd : t.add hasher key value = t := by
    simp [HashTable.add, hprobe]
  refine ⟨hprobe, ?_, hadd, ?_⟩
  · intro fuel hfuel
    have h := HashTable.addProbe_short_fuel t key _ hs hfull fuel 0 (by omega)
    rw [h0] at h
    exact h
  · rw [hadd]
    exact HashTable.get_of_full hasher t hwf key hfull

/-- C12, on the full table of two slots that holds the keys 1 and 2, for the
key 3. -/
theorem add_full_noop_witness :
    (HashTable.addAll (fun k => k) 2 [((1 : Nat), (10 : Nat)), (2, 20)]).add (fun k => k) 3 30 =
      HashTable.addAll (fun k => k) 2 [((1 : Nat), (10 : Nat)), (2, 20)] ∧
    ((HashTable.addAll (fun k => k) 2 [((1 : Nat), (10 : Nat)), (2, 20)]).add
      (fun k => k) 3 30).get (fun k => k) 3 = none :=
  ⟨(add_full_noop (fun k => k) _ (HashTable.addAll_wf _ _ _) 3 30 full_example_busy).2.2.1,
    (add_full_noop (fun k => k) _ (HashTable.addAll_wf _ _ _) 3 30 full_example_busy).2.2.2⟩

/-- C13: the insertions of a run of `compress` after the seeding are those of its
passes through line 112, each pass working on the dictionary that the pass
before it left; the insertion of index `k` gives the code `256 + k`, which is
at most 4095, and a pass that finds `next_code` at 4096 inserts nothing. -/
theorem inserted_codes_increasing (hasher : List Byte → Nat) (text : List Byte) :
    (∀ (k : Nat) (p : List Byte × Int), ((emitSteps hasher text).filterMap EmitStep.inserted)[k]? = some p →
      p.2 = ((256 + k : Nat) : Int) ∧ 256 + k ≤ 4095) ∧
    (∀ (i : Nat) (s : EmitStep), (emitSteps hasher text)[i]? = some s → 4096 ≤ s.next_code →
      s.inserted = none) ∧
    (∀ s : EmitStep, (emitSteps hasher text)[0]? = some s →
      s.dictionary = seedDictionary hasher ∧ s.next_code = 256) ∧
    (∀ (i : Nat) (s s2 : EmitStep), (emitSteps hasher text)[i]? = some s →
      (emitSteps hasher text)[i + 1]? = some s2 →
      s2.dictionary = s.grown hasher ∧
      s2.next_code = s.next_code + (if s.inserted.isSome then 1 else 0)) := by
  refine ⟨?_, ?_, (emitSteps_chain hasher text).1, (emitSteps_chain hasher text).2⟩
  · intro k p hp
    obtain ⟨i, s, h1, h2, h3⟩ := filterMap_getElem? _ _ k p hp
    have ht := emitSteps_tracked hasher text i s h1
    obtain ⟨hp1, _, hp3⟩ := inserted_eq_some s p h2
    have hnext := ht.next_eq
    rw [h3] at hnext
    rw [hp1]
    simp only
    rw [hnext]
    exact ⟨rfl, by omega⟩
  · intro i s _ hfull
    cases hins : s.inserted with
    | none => rfl
    | some p =>
      have := (inserted_eq_some s p hins).2.2
      omega

/-- C13, on the text "AB": its one insertion has the code 256. -/
theorem inserted_codes_increasing_witness :
    ((emitSteps (fun _ => 0) [65, 66]).filterMap EmitStep.inserted)[0]? =
      some ([65, 66], 256) ∧
    (([65, 66], 256) : List Byte × Int).2 = ((256 + 0 : Nat) : Int) ∧ 256 + 0 ≤ 4095 := by
  have h : ((emitSteps (fun _ => 0) [65, 66]).filterMap EmitStep.inserted)[0]? =
      some ([65, 66], 256) := by
    rw [emitSteps_two_bytes _ _ _ (by decide)]
    simp [EmitStep.inserted]
  exact ⟨h, (inserted_codes_increasing (fun _ => 0) [65, 66]).1 0 _ h⟩

/-- C14: when the loop of `decompress` reaches, after `k` accepted codes, a
code equal to `next_available_code`, the string it writes for this code is the
string written for the code before it, followed by the first byte of that same
string.  The written strings, one after the other, are the output. -/
theorem kwk_expansion (first : Int) (rest : List Int) (k : Nat) (st : DecodeState)
    (hfirst : 0 ≤ first ∧ first ≤ 255) (hk : k < rest.length)
    (hrun : runCodes (rest.take k) (initialState first) = some st)
    (hcode : rest.getD k 0 = (st.next_available_code : Int)) :
    (∃ previous, (writtenEntries (first :: rest))[k]? = some previous ∧
      previous = st.previous_entry ∧ previous ≠ [] ∧
      (writtenEntries (first :: rest))[k + 1]? = some (previous ++ [firstByte previous])) ∧
    st.next_available_code = min (256 + k) 4096 ∧
    (decompress (first :: rest)).output = (writtenEntries (first :: rest)).flatten := by
  have hinv := initialState_inv first hfirst
  obtain ⟨hinv1, hnext⟩ := runCodes_inv _ _ _ hinv hrun
  have hn : ¬ (first < 0 ∨ first > 255) := by omega
  have hentries : writtenEntries (first :: rest) =
      (initialState first).previous_entry :: loopEntries rest (initialState first) := by
    simp only [writtenEntries, hn, if_false]
  refine ⟨⟨st.previous_entry, ?_, rfl, hinv1.previous_ne, ?_⟩, ?_, decompress_output_eq _⟩
  · rw [hentries]
    exact loopEntries_previous k rest _ st (by omega) hrun
  · rw [hentries, List.getElem?_cons_succ]
    apply loopEntries_current k rest _ st _ hk hrun
    rw [hcode]
    exact currentEntry_next st
  · rw [hnext, List.length_take, Nat.min_eq_left (Nat.le_of_lt hk)]
    simp only [initialState]

/-- C14, on "ABABABA": `compress` writes `[65, 66, 256, 258]`, `decompress`
meets the code 258 when `next_available_code` is 258, writes "ABA" for it after
"AB", and gives back "ABABABA". -/
theorem kwk_expansion_witness :
    compress (fun _ => 0) [65, 66, 65, 66, 65, 66, 65] = [65, 66, 256, 258] ∧
    decompress [65, 66, 256, 258] =
      { output := [65, 66, 65, 66, 65, 66, 65], error := none } ∧
    ∃ st, runCodes ([(66 : Int), 256, 258].take 2) (initialState 65) = some st ∧
      st.next_available_code = 258 ∧
      ∃ previous, (writtenEntries [65, 66, 256, 258])[2]? = some previous ∧
        (writtenEntries [65, 66, 256, 258])[2 + 1]? =
          some (previous ++ [firstByte previous]) := by
  have hdec : decompress [65, 66, 256, 258] =
      { output := [65, 66, 65, 66, 65, 66, 65], error := none } := by
    rw [← abababa_run (fun _ => 0), decompress_compress]
    rfl
  obtain ⟨st, hst⟩ := kwk_example_state
  have hinv := runCodes_inv _ _ _ (initialState_inv 65 (by omega)) hst
  have hnext : st.next_available_code = 258 := by
    rw [hinv.2]
    simp only [initialState]
    rfl
  have h := kwk_expansion 65 [66, 256, 258] 2 st (by omega) (by simp) hst
    (by rw [hnext]; rfl)
  obtain ⟨⟨previous, h1, _, _, h4⟩, _, _⟩ := h
  exact ⟨abababa_run _, hdec, st, hst, hnext, previous, h1, h4⟩

/-- C15: a run of `compress` on a non-empty text has at least one pass through
line 112, and in every such pass, whatever the hash function, `get` finds the
current string in the dictionary, so that the pass writes exactly one code;
the codes of the run are those of its passes. -/
theorem emit_step_finds_current (hasher : List Byte → Nat) (text : List Byte) :
    (text ≠ [] → emitSteps hasher text ≠ []) ∧
    compress hasher text = (emitSteps hasher text).flatMap (EmitStep.written hasher) ∧
    (∀ (i : Nat) (s : EmitStep), (emitSteps hasher text)[i]? = some s →
      ∃ c, s.dictionary.get hasher s.current_prefix = some c ∧ s.written hasher = [c]) := by
  refine ⟨emitSteps_ne_nil hasher text, compress_eq_steps hasher text, ?_⟩
  intro i s hs
  obtain ⟨c, hc, _⟩ := emitSteps_written hasher text i s hs
  refine ⟨c, ?_, hc⟩
  unfold EmitStep.written emitCode at hc
  cases hg : s.dictionary.get hasher s.current_prefix with
  | none => rw [hg] at hc; cases hc
  | some c2 =>
    rw [hg] at hc
    simp only [List.cons.injEq, and_true] at hc
    rw [hc]

/-- C15, at the pass of index 3 of the run on "ABABABA". -/
theorem emit_step_finds_current_witness :
    ∃ s, (emitSteps (fun _ => 0) [65, 66, 65, 66, 65, 66, 65])[3]? = some s ∧
      ∃ c, s.dictionary.get (fun _ => 0) s.current_prefix = some c ∧
        s.written (fun _ => 0) = [c] :=
  ⟨_, List.getElem?_eq_getElem (by rw [emitSteps_example_length]; omega),
    (emit_step_finds_current (fun _ => 0) [65, 66, 65, 66, 65, 66, 65]).2.2 3 _
      (List.getElem?_eq_getElem (by rw [emitSteps_example_length]; omega))⟩

/-- C16: the dictionary of `compress` never fills.  Each of the 256 seeds is
added to a table with at most `n` used slots, the loop of `add` stops at a slot
and `get` finds the seed afterwards.  In every pass through line 112 the
dictionary has 16384 slots, at most 4096 of them used, also after the insertion
of the pass, and when the pass inserts a pair the loop of `add` stops at a slot
and `get` finds the pair afterwards. -/
theorem dictionary_never_full (hasher : List Byte → Nat) (text : List Byte) :
    seedDictionary hasher = seedDictionaryUpTo hasher 256 ∧
    (∀ n, n < 256 →
      seedDictionaryUpTo hasher (n + 1) =
        (seedDictionaryUpTo hasher n).add hasher [Fin.ofNat n] (n : Int) ∧
      (seedDictionaryUpTo hasher n).table_size = 16384 ∧
      (seedDictionaryUpTo hasher n).used ≤ n ∧
      (∃ spot, HashTable.addProbe (seedDictionaryUpTo hasher n) [Fin.ofNat n]
        ((seedDictionaryUpTo hasher n).hash hasher [Fin.ofNat n])
        (seedDictionaryUpTo hasher n).table_size
        ((seedDictionaryUpTo hasher n).hash hasher [Fin.ofNat n]) =
          HashTable.ProbeResult.stop spot) ∧
      (seedDictionaryUpTo hasher (n + 1)).get hasher [Fin.ofNat n] = some (n : Int)) ∧
    (∀ (i : Nat) (s : EmitStep), (emitSteps hasher text)[i]? = some s →
      s.dictionary.table_size = 16384 ∧ s.dictionary.table.length = 16384 ∧
      s.dictionary.used ≤ 4096 ∧ (s.grown hasher).used ≤ 4096 ∧
      ∀ p : List Byte × Int, s.inserted = some p →
        (∃ spot, HashTable.addProbe s.dictionary p.1 (s.dictionary.hash hasher p.1)
          s.dictionary.table_size (s.dictionary.hash hasher p.1) =
            HashTable.ProbeResult.stop spot) ∧
        (s.grown hasher).get hasher p.1 = some p.2) := by
  refine ⟨seedDictionary_eq_upTo hasher, ?_, ?_⟩
  · intro n hn
    obtain ⟨hwf, hr, hfree, _⟩ := seedDictionaryUpTo_inv hasher n (by omega)
    have hsize := seedDictionaryUpTo_table_size hasher n
    have hused := HashTable.used_add_free (seedDictionaryUpTo hasher n)
    rw [hwf.length_eq, hsize] at hused
    have hroom := HashTable.room_of_free _ hwf (by omega) [(Fin.ofNat n : Byte)]
    obtain ⟨h1, h2⟩ := HashTable.add_stored hasher _ hwf hr [(Fin.ofNat n : Byte)] (n : Int) hroom
    refine ⟨seedDictionaryUpTo_succ hasher n, hsize, by omega, h1, ?_⟩
    rw [seedDictionaryUpTo_succ]
    exact h2
  · intro i s hs
    have ht := emitSteps_tracked hasher text i s hs
    have hsize := emitSteps_table_size hasher text i s hs
    have hwf := ht.dict.wf
    have hr := ht.dict.reachable
    have hfree := ht.dict.free_ge
    have hlen := ht.length_le
    rw [List.length_map] at hfree
    have hused := HashTable.used_add_free s.dictionary
    rw [hwf.length_eq, hsize] at hused
    have hlength : s.dictionary.table.length = 16384 := by rw [hwf.length_eq, hsize]
    have hins : ∀ p, s.inserted = some p →
        (s.grown hasher).used ≤ 4096 ∧
        (∃ spot, HashTable.addProbe s.dictionary p.1 (s.dictionary.hash hasher p.1)
          s.dictionary.table_size (s.dictionary.hash hasher p.1) =
            HashTable.ProbeResult.stop spot) ∧
        (s.grown hasher).get hasher p.1 = some p.2 := by
      intro p hp
      have hnext := (inserted_eq_some s p hp).2.2
      have hne := ht.next_eq
      have hroom := HashTable.room_of_free _ hwf (by omega) p.1
      obtain ⟨h1, h2⟩ := HashTable.add_stored hasher _ hwf hr p.1 p.2 hroom
      have hgrown : s.grown hasher = s.dictionary.add hasher p.1 p.2 := by
        simp only [EmitStep.grown, hp]
      have hfree2 := HashTable.add_free hasher s.dictionary hwf p.1 p.2
      have hused2 := HashTable.used_add_free (s.dictionary.add hasher p.1 p.2)
      rw [(HashTable.add_wf hasher _ hwf p.1 p.2).length_eq, HashTable.add_table_size,
        hsize] at hused2
      rw [hgrown]
      exact ⟨by omega, h1, h2⟩
    refine ⟨hsize, hlength, by omega, ?_, fun p hp => (hins p hp).2⟩
    cases hp : s.inserted with
    | none =>
      have hgrown : s.grown hasher = s.dictionary := by
        simp only [EmitStep.grown, hp]
      rw [hgrown]; omega
    | some p => exact (hins p hp).1

/-- C16, at the seed 65 and at the first pass of the run on "AB". -/
theorem dictionary_never_full_witness :
    (seedDictionaryUpTo (fun _ => 0) 65).used ≤ 65 ∧
    (seedDictionaryUpTo (fun _ => 0) (65 + 1)).get (fun _ => 0) [Fin.ofNat 65] =
      some ((65 : Nat) : Int) ∧
    ∃ s, (emitSteps (fun _ => 0) [65, 66])[0]? = some s ∧ s.dictionary.used ≤ 4096 ∧
      (s.grown (fun _ => 0)).get (fun _ => 0) [65, 66] = some 256 := by
  have h := dictionary_never_full (fun _ => 0) [65, 66]
  have hs : (emitSteps (fun _ => 0) [65, 66])[0]? =
      some { dictionary := seedDictionary (fun _ => 0), next_code := 256,
             current_prefix := [65], current_char := 66 } := by
    rw [emitSteps_two_bytes _ _ _ (by decide)]
    rfl
  obtain ⟨_, _, h3, _, h5⟩ := h.2.2 0 _ hs
  exact ⟨(h.2.1 65 (by omega)).2.2.1, (h.2.1 65 (by omega)).2.2.2.2, _, hs, h3,
    (h5 ([65, 66], 256) (by simp [EmitStep.inserted])).2⟩

/-- C17: in every table reached from a fresh one by insert operations, whatever
the hash function, the capacity and the number of inserts, two used slots that
hold the same key are the same slot. -/
theorem addAll_key_unique {K V : Type} [DecidableEq K] (hasher : K → Nat) (size : Int)
    (ops : List (K × V)) (i j : Nat) (key : K) (v w : V)
    (hi : (HashTable.addAll hasher size ops).slot i = some (key, v))
    (hj : (HashTable.addAll hasher size ops).slot j = some (key, w)) : i = j :=
  HashTable.key_unique hasher _ (HashTable.addAll_reachable hasher size ops) i j key v w hi hj

/-- C17, on a table of two slots after four inserts, the last one on the full
table: the key 1 is in slot 1 only. -/
theorem addAll_key_unique_witness :
    (HashTable.addAll (fun k => k) 2
      [((1 : Nat), (10 : Nat)), (3, 20), (1, 30), (5, 50)]).slot 1 = some (1, 30) ∧
    (1 : Nat) = 1 :=
  ⟨by decide,
    addAll_key_unique (fun k => k) 2 [((1 : Nat), (10 : Nat)), (3, 20), (1, 30), (5, 50)]
      1 1 1 30 30 (by decide) (by decide)⟩

/-- C18: the table after the seeding holds the one-byte string of value `i` in
every slot `i < 256` and the empty string in the other slots.  In the state
reached after `k` accepted codes, the table has its 4096 slots, the slots below
256 still hold the one-byte strings, the slots from 256 to
`next_available_code - 1` are not empty, the slots from `next_available_code`
on are empty, and `next_available_code` is `min (256 + k) 4096`: one slot
filled for each accepted code, in the order 256, 257, ..., up to 4096. -/
theorem decode_table_invariant (first : Int) (rest : List Int) (k : Nat) (st : DecodeState)
    (hfirst : 0 ≤ first ∧ first ≤ 255) (hk : k ≤ rest.length)
    (hrun : runCodes (rest.take k) (initialState first) = some st) :
    (seedTable.length = 4096 ∧ (initialState first).dictionary = seedTable ∧
      ∀ i, seedTable.getD i [] = if i < 256 then [Fin.ofNat i] else []) ∧
    st.dictionary.length = 4096 ∧
    (∀ i, i < 256 → st.dictionary.getD i [] = [Fin.ofNat i]) ∧
    (∀ i, 256 ≤ i → i < st.next_available_code → st.dictionary.getD i [] ≠ []) ∧
    (∀ i, st.next_available_code ≤ i → st.dictionary.getD i [] = []) ∧
    st.next_available_code = min (256 + k) 4096 ∧
    st.next_available_code ≤ 4096 := by
  have hinv := initialState_inv first hfirst
  obtain ⟨hinv1, hnext⟩ := runCodes_inv _ _ _ hinv hrun
  refine ⟨⟨seedTable_length, by simp only [initialState], seedTable_getD⟩, hinv1.length_eq,
    hinv1.seeds, fun i _ hi => hinv1.filled i hi, hinv1.unfilled, ?_, hinv1.next_le⟩
  rw [hnext, List.length_take, Nat.min_eq_left hk]
  simp only [initialState]

/-- C18, in the run on `[65, 66, 256, 258]` after the codes 66 and 256: the
slots 256 and 257 are filled and `next_available_code` is 258. -/
theorem decode_table_invariant_witness :
    ∃ st, runCodes ([(66 : Int), 256, 258].take 2) (initialState 65) = some st ∧
      st.dictionary.length = 4096 ∧
      (∀ i, 256 ≤ i → i < st.next_available_code → st.dictionary.getD i [] ≠ []) ∧
      (∀ i, st.next_available_code ≤ i → st.dictionary.getD i [] = []) ∧
      st.next_available_code = min (256 + 2) 4096 := by
  obtain ⟨st, hst⟩ := kwk_example_state
  have h := decode_table_invariant 65 [66, 256, 258] 2 st (by omega) (by simp) hst
  exact ⟨st, hst, h.2.1, h.2.2.2.1, h.2.2.2.2.1, h.2.2.2.2.2.1⟩

/-- C19: when a byte of `text` after the first is zero, `compress` writes for
`text` the codes it writes for `readPart text`, the part of `text` before the
first such byte: the zero byte and what follows it change nothing. -/
theorem compress_zero_sentinel (hasher : List Byte → Nat) (text : List Byte)
    (h : (0 : Byte) ∈ text.tail) :
    compress hasher text = compress hasher (readPart text) ∧
    (∃ after, text = readPart text ++ 0 :: after) ∧
    (0 : Byte) ∉ (readPart text).tail := by
  refine ⟨compress_readPart hasher text, ?_, ?_⟩
  · cases text with
    | nil => simp at h
    | cons first rest =>
      obtain ⟨after, ha⟩ := takeWhile_split rest h
      refine ⟨after, ?_⟩
      simp only [readPart, List.cons_append]
      rw [← ha]
  · cases text with
    | nil => simp [readPart]
    | cons first rest =>
      simp only [readPart, List.tail_cons]
      intro hmem
      have := List.mem_takeWhile_imp hmem
      simp at this

/-- C19, on the text `[65, 0, 66]`, which is encoded as `[65]` is. -/
theorem compress_zero_sentinel_witness :
    (0 : Byte) ∈ ([65, 0, 66] : List Byte).tail ∧
    compress (fun _ => 0) [65, 0, 66] = compress (fun _ => 0) (readPart [65, 0, 66]) ∧
    readPart [65, 0, 66] = [65] :=
  ⟨by simp, (compress_zero_sentinel (fun _ => 0) [65, 0, 66] (by simp)).1, by decide⟩

/-- C20: every access of a run of `decompress`, on any code sequence, is in
range: each index at which the table of 4096 slots is read or written lies in
`0 .. 4095`, and each string whose first byte is read is not empty. -/
theorem decompress_accesses_inRange (numbers : List Int) (a : Access)
    (ha : a ∈ decompressAccesses numbers) : a.inRange 4096 := by
  unfold decompressAccesses at ha
  rcases List.mem_append.mp ha with h | h
  · obtain ⟨i, hi, hia⟩ := List.mem_map.mp h
    rw [← hia]
    have := List.mem_range.mp hi
    exact ⟨by omega, by omega⟩
  · cases numbers with
    | nil => simp at h
    | cons first rest =>
      simp only at h
      split at h
      · simp at h
      · rename_i hn
        have hfirst : 0 ≤ first ∧ first ≤ 255 := by omega
        rcases List.mem_cons.mp h with h1 | h1
        · rw [h1]
          exact ⟨by omega, by omega⟩
        · exact loopAccesses_inRange rest _ (initialState_inv first hfirst) a h1

/-- C20, at the read of the table for the first code of `[65, -7, 9999]`. -/
theorem decompress_accesses_inRange_witness :
    Access.tableRead 65 ∈ decompressAccesses [65, -7, 9999] ∧
    (Access.tableRead 65).inRange 4096 := by
  have h : Access.tableRead 65 ∈ decompressAccesses [65, -7, 9999] := by
    unfold decompressAccesses
    apply List.mem_append_right
    have hn : ¬ ((65 : Int) < 0 ∨ (65 : Int) > 255) := by omega
    simp only [hn, if_false]
    exact List.mem_cons_self _ _
  exact ⟨h, decompress_accesses_inRange [65, -7, 9999] _ h⟩

end ZivLempel
